import Mathlib

/-!
Verification of the image-generation pipeline of `webui.py` (stable-diffusion-webui).

This file gives a shallow embedding of the pure algorithmic core of the program:

* the grid tiler `split_grid` / `combine_grid` (webui.py lines 463-527),
* the mask bounding-box scanner `get_crop_region` (lines 1343-1376),
* the prompt-matrix expansion inside `process_images` (lines 1116-1137),
* the loopback driver loop of `img2img` (lines 1574-1595),
* `CFGDenoiser.forward` (lines 985-1000),
* the request validation of `do_generate` (lines 1878-1884) together with the
  `img2img` strength assertion (line 1548),
* the custom-word re-tokenisation and padding of
  `FrozenCLIPEmbedderWithCustomWords.forward` (lines 797-867).

Images are modelled as total pixel functions together with declared dimensions;
pixel values are natural numbers (one colour channel suffices, every image
operation used here acts channel-wise).  Python integers are modelled by `Int`
or, where the program only ever sees non-negative values, by `Nat`; Python
floats are modelled by `Rat` (the float literals 0.95, 0.1 of the source are
written as the exact rationals 19/20, 1/10).
-/

/-! ## Image model (PIL semantics for new/crop/paste used by the tiler) -/

/-- PIL blends `src` over `dst` through an 8-bit alpha `a` as
`(src * a + dst * (255 - a)) / 255` with rounding.  Only the identity
`blend255 d d a = d` (for `a ≤ 255`) matters to the theorems below, and it
holds for PIL's exact fixed-point rounding as well as for this model. -/
def blend255 (d s a : ℕ) : ℕ := (s * a + d * (255 - a) + 127) / 255

/-- An image: declared size plus a pixel function.  Only pixels with
`u < width`, `v < height` are meaningful; constructed images return 0 (black)
outside their bounds, like PIL. -/
structure Img where
  width : ℕ
  height : ℕ
  pix : ℕ → ℕ → ℕ

instance : Inhabited Img := ⟨⟨0, 0, fun _ _ => 0⟩⟩

/-- `Image.new`: a black image of the given size. -/
def Img.new (w h : ℕ) : Img := ⟨w, h, fun _ _ => 0⟩

/-- `image.crop((x0, y0, x1, y1))`: size `(x1-x0, y1-y0)`, reading the source
inside its bounds and black outside (PIL pads out-of-bounds crops with 0). -/
def Img.crop (im : Img) (x0 y0 x1 y1 : ℕ) : Img :=
  ⟨x1 - x0, y1 - y0, fun u v =>
    if x0 + u < im.width ∧ y0 + v < im.height then im.pix (x0 + u) (y0 + v) else 0⟩

/-- `dst.paste(src, (x, y))` without a mask: copies `src` onto the rectangle
at `(x, y)`, clipped to `dst`. -/
def Img.paste (dst src : Img) (x y : ℕ) : Img :=
  ⟨dst.width, dst.height, fun u v =>
    if x ≤ u ∧ u < x + src.width ∧ y ≤ v ∧ v < y + src.height ∧ u < dst.width ∧ v < dst.height
    then src.pix (u - x) (v - y) else dst.pix u v⟩

/-- `dst.paste(src, (x, y), mask=mask)` with an 8-bit (`'L'`) mask of the same
size as `src`: alpha-blends `src` over `dst` through the mask. -/
def Img.pasteMask (dst src mask : Img) (x y : ℕ) : Img :=
  ⟨dst.width, dst.height, fun u v =>
    if x ≤ u ∧ u < x + src.width ∧ y ≤ v ∧ v < y + src.height ∧ u < dst.width ∧ v < dst.height
    then blend255 (dst.pix u v) (src.pix (u - x) (v - y)) (mask.pix (u - x) (v - y))
    else dst.pix u v⟩

/-! ## Grid tiler (webui.py lines 463-527) -/

/-- `Grid = namedtuple("Grid", ["tiles", "tile_w", "tile_h", "image_w", "image_h", "overlap"])`
(line 463).  A row is `[y, tile_h, row_images]`, a row entry is `[x, tile_w, tile]`. -/
structure Grid where
  tiles : List (ℕ × ℕ × List (ℕ × ℕ × Img))
  tile_w : ℕ
  tile_h : ℕ
  image_w : ℕ
  image_h : ℕ
  overlap : ℕ

/-- `math.ceil(a / b)` for non-negative integers and `b > 0` (lines 473-474;
for the image sizes involved the Python float division is exact enough that
`math.ceil` agrees with exact rational ceiling). -/
def pyCeilDiv (a b : ℕ) : ℕ := (a + b - 1) / b

/-- Tile offset computation of `split_grid` (lines 486-489 for x, 480-483 for y):
`x = col * non_overlap; if x + tile_size >= dim: x = dim - tile_size`. -/
def tileOffset (dim size nonoverlap idx : ℕ) : ℕ :=
  if dim ≤ idx * nonoverlap + size then dim - size else idx * nonoverlap

/-- One entry `[x, tile_w, tile]` of a row of `split_grid` (lines 486-493). -/
def split_grid_tile (image : Img) (tile_w tile_h overlap y col : ℕ) : ℕ × ℕ × Img :=
  let x := tileOffset image.width tile_w (tile_w - overlap) col
  (x, tile_w, image.crop x y (x + tile_w) (y + tile_h))

/-- One row `[y, tile_h, row_images]` of `split_grid` (lines 477-495). -/
def split_grid_row (image : Img) (tile_w tile_h overlap row : ℕ) : ℕ × ℕ × List (ℕ × ℕ × Img) :=
  let y := tileOffset image.height tile_h (tile_h - overlap) row
  (y, tile_h,
    (List.range (pyCeilDiv (image.width - overlap) (tile_w - overlap))).map
      (split_grid_tile image tile_w tile_h overlap y))

/-- `split_grid(image, tile_w, tile_h, overlap)` (lines 466-497). -/
def split_grid (image : Img) (tile_w tile_h overlap : ℕ) : Grid :=
  { tiles := (List.range (pyCeilDiv (image.height - overlap) (tile_h - overlap))).map
      (split_grid_row image tile_w tile_h overlap),
    tile_w := tile_w, tile_h := tile_h,
    image_w := image.width, image_h := image.height, overlap := overlap }

/-- Processing of one row entry inside `combine_grid` (lines 512-518): the
first tile (`x == 0`) is pasted directly; any other tile has its first
`overlap` columns blended in through the horizontal ramp mask and the rest
pasted directly. -/
def combine_tile_step (overlap : ℕ) (mask_w : Img) (h : ℕ) (cr : Img) (xwt : ℕ × ℕ × Img) : Img :=
  let x := xwt.1
  let w := xwt.2.1
  let tile := xwt.2.2
  if x = 0 then cr.paste tile 0 0
  else
    (cr.pasteMask (tile.crop 0 0 overlap h) mask_w x 0).paste
      (tile.crop overlap 0 w h) (x + overlap) 0

/-- `combined_row` of `combine_grid` (lines 511-518). -/
def combine_row (overlap : ℕ) (mask_w : Img) (image_w h : ℕ) (row : List (ℕ × ℕ × Img)) : Img :=
  row.foldl (combine_tile_step overlap mask_w h) (Img.new image_w h)

/-- Processing of one row inside `combine_grid` (lines 510-525): the first row
(`y == 0`) is pasted directly; any other row has its first `overlap` lines
blended in through the vertical ramp mask and the rest pasted directly. -/
def combine_row_step (overlap : ℕ) (mask_w mask_h : Img) (image_w : ℕ) (ci : Img)
    (yhr : ℕ × ℕ × List (ℕ × ℕ × Img)) : Img :=
  let y := yhr.1
  let h := yhr.2.1
  let combined_row := combine_row overlap mask_w image_w h yhr.2.2
  if y = 0 then ci.paste combined_row 0 0
  else
    (ci.pasteMask (combined_row.crop 0 0 combined_row.width overlap) mask_h 0 y).paste
      (combined_row.crop 0 overlap combined_row.width h) 0 (y + overlap)

/-- `combine_grid(grid)` (lines 500-527).  `mask_w` is the horizontal linear
alpha ramp `uint8(arange(overlap) * 255 / overlap)` repeated over `tile_h`
rows (line 506), `mask_h` the vertical one repeated over `image_w` columns
(line 507); the `uint8` cast truncates, i.e. takes the floor. -/
def combine_grid (grid : Grid) : Img :=
  let mask_w : Img := ⟨grid.overlap, grid.tile_h, fun a _ => a * 255 / grid.overlap⟩
  let mask_h : Img := ⟨grid.image_w, grid.overlap, fun _ b => b * 255 / grid.overlap⟩
  grid.tiles.foldl (combine_row_step grid.overlap mask_w mask_h grid.image_w)
    (Img.new grid.image_w grid.image_h)

/-- Modelled from the spec (claim C9): the "simple non-overlapping paste"
combiner that pastes every tile directly at its recorded offset with no
blending.  This is the comparator the degenerate `overlap = 0` case of
`combine_grid` is claimed to coincide with. -/
def combine_grid_simple (grid : Grid) : Img :=
  grid.tiles.foldl
    (fun ci yhr => yhr.2.2.foldl (fun cr xwt => cr.paste xwt.2.2 xwt.1 yhr.1) ci)
    (Img.new grid.image_w grid.image_h)

/-! ## Mask/crop engine: `get_crop_region` (webui.py lines 1343-1376) -/

/-- A 2-D numpy array as used for masks: `val r c` is `mask[r, c]` (row-major,
shape `(h, w)`).  Entries outside the declared shape are irrelevant. -/
structure NpMask where
  h : ℕ
  w : ℕ
  val : ℕ → ℕ → ℕ

/-- `(mask[:, i] == 0).all()` (lines 1348, 1354). -/
def colAllZero (m : NpMask) (i : ℕ) : Bool :=
  (List.range m.h).all (fun r => m.val r i == 0)

/-- `(mask[i] == 0).all()` (lines 1361, 1367). -/
def rowAllZero (m : NpMask) (i : ℕ) : Bool :=
  (List.range m.w).all (fun c => m.val i c == 0)

/-- `crop_left`: the loop of lines 1346-1350 counts leading all-zero columns,
which is the index of the first non-zero column (or `w` if none). -/
def crop_left (m : NpMask) : ℕ :=
  (List.range m.w).findIdx (fun i => !colAllZero m i)

/-- `crop_right`: lines 1352-1356, scanning columns from the right. -/
def crop_right (m : NpMask) : ℕ :=
  (List.range m.w).reverse.findIdx (fun i => !colAllZero m i)

/-- `crop_top`: lines 1359-1363. -/
def crop_top (m : NpMask) : ℕ :=
  (List.range m.h).findIdx (fun i => !rowAllZero m i)

/-- `crop_bottom`: lines 1365-1369. -/
def crop_bottom (m : NpMask) : ℕ :=
  (List.range m.h).reverse.findIdx (fun i => !rowAllZero m i)

/-- `get_crop_region(mask, pad)` (lines 1343-1376), returning
`(left, top, right, bottom)`.  For `pad ≥ 0` Python's `max(x - pad, 0)` is
exactly truncated subtraction on `Nat`. -/
def get_crop_region (m : NpMask) (pad : ℕ) : ℕ × ℕ × ℕ × ℕ :=
  (crop_left m - pad, crop_top m - pad,
   min (m.w - crop_right m + pad) m.w,
   min (m.h - crop_bottom m + pad) m.h)

/-! ## Prompt-matrix expansion in `process_images` (webui.py lines 1109-1137) -/

/-- `seed = int(random.randrange(4294967294) if p.seed == -1 else p.seed)`
(line 1109); `rand` stands for the value the random draw would produce. -/
def process_images_resolve_seed (rand s : ℤ) : ℤ :=
  if s = -1 then rand else s

/-- The characters stripped by Python's argument-less `str.strip()`. -/
def pyWhitespace : List Char := [' ', '\t', '\n', '\r', '\x0b', '\x0c']

/-- Python's `str.strip(chars)`: drop the given characters from both ends. -/
def pyStrip (cs : List Char) (s : String) : String :=
  String.mk (((s.toList.dropWhile (fun c => cs.contains c)).reverse.dropWhile
    (fun c => cs.contains c)).reverse)

/-- `prompt.split("|")` (line 1119). -/
def prompt_matrix_parts (prompt : String) : List String :=
  prompt.split (fun c => c == '|')

/-- The `(n, text)` pairs kept by the comprehension of line 1122:
`enumerate(prompt_matrix_parts[1:])` filtered by `combination_num & (1 << n)`. -/
def matrix_selected_idx (num : ℕ) (parts : List String) : List (ℕ × String) :=
  (parts.drop 1).enum.filter (fun pr => num &&& (1 <<< pr.1) != 0)

/-- `selected_prompts` of line 1122: the kept clauses, each
`text.strip().strip(',')`-ed. -/
def matrix_selected_prompts (num : ℕ) (parts : List String) : List String :=
  (matrix_selected_idx num parts).map (fun pr => pyStrip [','] (pyStrip pyWhitespace pr.2))

/-- One expanded prompt (lines 1122-1129): the base clause `parts[0]` is put
after or before the selected clauses depending on
`opts.prompt_matrix_add_to_start`, and everything is joined with `", "`. -/
def prompt_matrix_prompt (add_to_start : Bool) (parts : List String) (num : ℕ) : String :=
  let selected := matrix_selected_prompts num parts
  let selected := if add_to_start then selected ++ [parts.headD ""] else parts.headD "" :: selected
  String.intercalate ", " selected

/-- `all_prompts` built by the prompt-matrix branch (lines 1118-1129):
`combination_count = 2 ** (len(prompt_matrix_parts) - 1)` expansions. -/
def process_images_all_prompts (add_to_start : Bool) (prompt : String) : List String :=
  let parts := prompt_matrix_parts prompt
  (List.range (2 ^ (parts.length - 1))).map (prompt_matrix_prompt add_to_start parts)

/-- `all_seeds = len(all_prompts) * [seed]` (line 1132), `seed` being the
resolved seed. -/
def process_images_all_seeds (add_to_start : Bool) (prompt : String) (seed : ℤ) : List ℤ :=
  List.replicate (process_images_all_prompts add_to_start prompt).length seed

/-! ## Loopback driver of `img2img` (webui.py lines 1574-1595)

`process_images` is abstracted as a function `gen` from (resolved seed,
denoising strength, source image) to the produced image; `rand n` is the value
`random.randrange(4294967294)` would return if round `n` had to resolve a seed
of -1.  The captured state is the mutated `(p.seed, p.denoising_strength,
p.init_images[0])` triple; each round sets `p.seed = processed.seed + 1`,
`p.denoising_strength = max(p.denoising_strength * 0.95, 0.1)` and
`p.init_images = [processed.images[0]]` (lines 1592-1594). -/

/-- The `(p.seed, p.denoising_strength, p.init_images[0])` state as it stands
before round `n` of the loopback loop. -/
def loopback_state {I : Type} (gen : ℤ → ℚ → I → I) (rand : ℕ → ℤ)
    (seed0 : ℤ) (str0 : ℚ) (img0 : I) : ℕ → ℤ × ℚ × I
  | 0 => (seed0, str0, img0)
  | n + 1 =>
    let st := loopback_state gen rand seed0 str0 img0 n
    let s := process_images_resolve_seed (rand n) st.1
    (s + 1, max (st.2.1 * (19 / 20)) (1 / 10), gen s st.2.1 st.2.2)

/-- The seed `process_images` resolves and uses in round `n`. -/
def loopback_seed_used {I : Type} (gen : ℤ → ℚ → I → I) (rand : ℕ → ℤ)
    (seed0 : ℤ) (str0 : ℚ) (img0 : I) (n : ℕ) : ℤ :=
  process_images_resolve_seed (rand n) (loopback_state gen rand seed0 str0 img0 n).1

/-- The denoising strength used in round `n`. -/
def loopback_strength_used {I : Type} (gen : ℤ → ℚ → I → I) (rand : ℕ → ℤ)
    (seed0 : ℤ) (str0 : ℚ) (img0 : I) (n : ℕ) : ℚ :=
  (loopback_state gen rand seed0 str0 img0 n).2.1

/-- The source image fed into round `n`. -/
def loopback_source {I : Type} (gen : ℤ → ℚ → I → I) (rand : ℕ → ℤ)
    (seed0 : ℤ) (str0 : ℚ) (img0 : I) (n : ℕ) : I :=
  (loopback_state gen rand seed0 str0 img0 n).2.2

/-- The image produced by round `n` (`processed.images[0]`). -/
def loopback_output {I : Type} (gen : ℤ → ℚ → I → I) (rand : ℕ → ℤ)
    (seed0 : ℤ) (str0 : ℚ) (img0 : I) (n : ℕ) : I :=
  gen (loopback_seed_used gen rand seed0 str0 img0 n)
    (loopback_strength_used gen rand seed0 str0 img0 n)
    (loopback_source gen rand seed0 str0 img0 n)

/-! ## `CFGDenoiser.forward` (webui.py lines 985-1000)

A batched tensor is a list (batch dimension) of flattened tensors (lists of
rationals); `torch.cat` is list append and all arithmetic is element-wise. -/

/-- Element-wise product of two batched tensors. -/
def tensor2_mul (a b : List (List ℚ)) : List (List ℚ) :=
  List.zipWith (List.zipWith (· * ·)) a b

/-- Element-wise sum of two batched tensors. -/
def tensor2_add (a b : List (List ℚ)) : List (List ℚ) :=
  List.zipWith (List.zipWith (· + ·)) a b

/-- `denoised = uncond + (cond - uncond) * cond_scale` (lines 991 and 995). -/
def cfg_combine (cond_scale : ℚ) (uncond cond : List (List ℚ)) : List (List ℚ) :=
  List.zipWith (List.zipWith (fun a b => a + (b - a) * cond_scale)) uncond cond

/-- `denoised = self.init_latent * self.mask + self.nmask * denoised`
(lines 997-998); the three tensors are set together (lines 1027-1029), so they
are modelled as one optional triple `(mask, nmask, init_latent)`. -/
def latent_blend (maskTriple : Option (List (List ℚ) × List (List ℚ) × List (List ℚ)))
    (denoised : List (List ℚ)) : List (List ℚ) :=
  match maskTriple with
  | none => denoised
  | some (m, nm, init_latent) => tensor2_add (tensor2_mul init_latent m) (tensor2_mul nm denoised)

/-- `CFGDenoiser.forward` (lines 985-1000).  `inner_model` takes
`(x, sigma, cond)`.  In the batched configuration the input batch is doubled
(`torch.cat([x] * 2)` etc., uncond conditioning first), the single inner call
is split back with `.chunk(2)` (first part of size ⌈n/2⌉), and the guidance
formula is applied; in the split configuration the inner model is called once
per conditioning. -/
def CFGDenoiser_forward (batch_cond_uncond : Bool)
    (inner_model : List (List ℚ) → List (List ℚ) → List (List ℚ) → List (List ℚ))
    (x sigma uncond cond : List (List ℚ)) (cond_scale : ℚ)
    (maskTriple : Option (List (List ℚ) × List (List ℚ) × List (List ℚ))) : List (List ℚ) :=
  let denoised :=
    if batch_cond_uncond then
      let x_in := x ++ x
      let sigma_in := sigma ++ sigma
      let cond_in := uncond ++ cond
      let out := inner_model x_in sigma_in cond_in
      let uncond2 := out.take ((out.length + 1) / 2)
      let cond2 := out.drop ((out.length + 1) / 2)
      cfg_combine cond_scale uncond2 cond2
    else
      cfg_combine cond_scale (inner_model x sigma uncond) (inner_model x sigma cond)
  latent_blend maskTriple denoised

/-! ## Request validation of `do_generate` (webui.py lines 1878-1943, 1548) -/

inductive GenMode where
  | TextToImage
  | ImageToImage
  | Inpainting
deriving DecidableEq

/-- The `assert 0. <= denoising_strength <= 1.` guard at the top of `img2img`
(line 1548), reached by the Image-to-Image and Inpainting branches. -/
def img2img_strength_check (denoising_strength : ℚ) : Except String Unit :=
  if 0 ≤ denoising_strength ∧ denoising_strength ≤ 1 then Except.ok ()
  else Except.error "can only work with strength in [0.0, 1.0]"

/-- The validation `do_generate` performs before any model or sampler runs
(lines 1878-1884), followed by the entry assertion of the function it
dispatches to: `txt2img` has no further check, `img2img` (both the
Image-to-Image and the Inpainting branch) asserts the denoising strength.
Note the batch/dimension checks of lines 1878-1884 are guarded by
`mode == 'Text-to-Image' or mode == 'Image-to-Image'` and are skipped for
Inpainting. -/
def do_generate_checks (mode : GenMode) (batch_count batch_size image_height image_width : ℤ)
    (denoising_strength : ℚ) : Except String Unit :=
  if mode = GenMode.TextToImage ∨ mode = GenMode.ImageToImage then
    if batch_count ≤ 0 then Except.error "Batch count must be > 0"
    else if batch_size ≤ 0 then Except.error "Images per batch must be > 0"
    else if image_height % 64 ≠ 0 ∨ image_width % 64 ≠ 0 then
      Except.error "Image dimensions must both be multiples of 64"
    else if mode = GenMode.TextToImage then Except.ok ()
    else img2img_strength_check denoising_strength
  else img2img_strength_check denoising_strength

/-! ## `FrozenCLIPEmbedderWithCustomWords.forward` (webui.py lines 797-867)

`token_mults` is the bracket/paren multiplier table (applied only when
`opts.enable_emphasis` is set, line 826), `ids_lookup` the custom-embedding
lookup keyed by first token id.  The while loop of lines 820-848 is modelled
by structural recursion on the remaining token list; a custom match consumes
`len(ids)` tokens (`i += len(ids) - 1` plus the `i += 1` of line 848).
Python would loop forever on a registered embedding with an empty id
sequence; that impossible case advances by one token here. -/

def remake_tokens (emph : Bool) (token_mults : ℕ → Option ℚ)
    (ids_lookup : ℕ → Option (List (List ℕ × String))) :
    List ℕ → ℚ → List ℕ × List ℚ × List (ℕ × String)
  | [], _ => ([], [], [])
  | token :: rest, mult =>
    match (if emph then token_mults token else none) with
    | some mult_change => remake_tokens emph token_mults ids_lookup rest (mult * mult_change)
    | none =>
      match ids_lookup token with
      | none =>
        let r := remake_tokens emph token_mults ids_lookup rest mult
        (token :: r.1, mult :: r.2.1, r.2.2.map (fun pr => (pr.1 + 1, pr.2)))
      | some possible_matches =>
        match possible_matches.find? (fun pr => (token :: rest).take pr.1.length == pr.1) with
        | some (ids, word) =>
          let r := remake_tokens emph token_mults ids_lookup
            ((token :: rest).drop (max ids.length 1)) mult
          (777 :: r.1, mult :: r.2.1, (0, word) :: r.2.2.map (fun pr => (pr.1 + 1, pr.2)))
        | none =>
          let r := remake_tokens emph token_mults ids_lookup rest mult
          (token :: r.1, mult :: r.2.1, r.2.2.map (fun pr => (pr.1 + 1, pr.2)))
termination_by tokens _ => tokens.length
decreasing_by
  all_goals simp_all [List.length_drop]

/-- `maxlen = self.wrapped.max_length - 2` (line 803). -/
def clip_maxlen (max_length : ℕ) : ℕ := max_length - 2

/-- `ovf = remade_tokens[maxlen - 2:]` (line 852): the token ids the warning
comment reports as truncated. -/
def clip_overflow (max_length : ℕ) (remade : List ℕ) : List ℕ :=
  remade.drop (clip_maxlen max_length - 2)

/-- The guard `len(remade_tokens) > maxlen - 2` of line 850: exactly when it
holds, a truncation warning comment is appended to `hijack.comments`. -/
def clip_warns (max_length : ℕ) (remade : List ℕ) : Bool :=
  decide (clip_maxlen max_length - 2 < remade.length)

/-- Lines 858-859: pad with the end token up to `maxlen - 2`, then surround
the first `maxlen - 2` tokens with the begin/end markers. -/
def clip_pad (max_length id_start id_end : ℕ) (remade : List ℕ) : List ℕ :=
  let maxlen := clip_maxlen max_length
  let remade2 := remade ++ List.replicate (maxlen - 2 - remade.length) id_end
  id_start :: (remade2.take (maxlen - 2) ++ [id_end])

/-! ## Basic lemmas about the image model -/

theorem blend255_self (d a : ℕ) (ha : a ≤ 255) : blend255 d d a = d := by
  unfold blend255
  have h : d * a + d * (255 - a) = d * 255 := by
    rw [← Nat.mul_add]
    congr 1
    omega
  rw [h]
  omega

theorem ramp_le_255 (a ov : ℕ) (h : a < ov) : a * 255 / ov ≤ 255 := by
  have hov : 0 < ov := by omega
  have h1 : a * 255 ≤ ov * 255 := Nat.mul_le_mul_right _ (le_of_lt h)
  calc a * 255 / ov ≤ ov * 255 / ov := Nat.div_le_div_right h1
    _ = 255 := Nat.mul_div_cancel_left _ hov

theorem Img.paste_width (dst src : Img) (x y : ℕ) : (dst.paste src x y).width = dst.width := rfl

theorem Img.paste_height (dst src : Img) (x y : ℕ) : (dst.paste src x y).height = dst.height := rfl

theorem Img.pasteMask_width (dst src mask : Img) (x y : ℕ) :
    (dst.pasteMask src mask x y).width = dst.width := rfl

theorem Img.pasteMask_height (dst src mask : Img) (x y : ℕ) :
    (dst.pasteMask src mask x y).height = dst.height := rfl

theorem Img.paste_pix_in (dst src : Img) (x y u v : ℕ)
    (h1 : x ≤ u) (h2 : u < x + src.width) (h3 : y ≤ v) (h4 : v < y + src.height)
    (h5 : u < dst.width) (h6 : v < dst.height) :
    (dst.paste src x y).pix u v = src.pix (u - x) (v - y) := by
  show (if _ ∧ _ ∧ _ ∧ _ ∧ _ ∧ _ then _ else _) = _
  rw [if_pos ⟨h1, h2, h3, h4, h5, h6⟩]

theorem Img.paste_pix_out (dst src : Img) (x y u v : ℕ)
    (h : ¬(x ≤ u ∧ u < x + src.width ∧ y ≤ v ∧ v < y + src.height ∧
           u < dst.width ∧ v < dst.height)) :
    (dst.paste src x y).pix u v = dst.pix u v := by
  show (if _ ∧ _ ∧ _ ∧ _ ∧ _ ∧ _ then _ else _) = _
  rw [if_neg h]

theorem Img.pasteMask_pix_in (dst src mask : Img) (x y u v : ℕ)
    (h1 : x ≤ u) (h2 : u < x + src.width) (h3 : y ≤ v) (h4 : v < y + src.height)
    (h5 : u < dst.width) (h6 : v < dst.height) :
    (dst.pasteMask src mask x y).pix u v
      = blend255 (dst.pix u v) (src.pix (u - x) (v - y)) (mask.pix (u - x) (v - y)) := by
  show (if _ ∧ _ ∧ _ ∧ _ ∧ _ ∧ _ then _ else _) = _
  rw [if_pos ⟨h1, h2, h3, h4, h5, h6⟩]

theorem Img.pasteMask_pix_out (dst src mask : Img) (x y u v : ℕ)
    (h : ¬(x ≤ u ∧ u < x + src.width ∧ y ≤ v ∧ v < y + src.height ∧
           u < dst.width ∧ v < dst.height)) :
    (dst.pasteMask src mask x y).pix u v = dst.pix u v := by
  show (if _ ∧ _ ∧ _ ∧ _ ∧ _ ∧ _ then _ else _) = _
  rw [if_neg h]

/-! ## Arithmetic of the tile offsets

`omega` cannot reason about products of two variables, so the clamped offset
is first characterised through `offCore`, whose argument `X` stands for the
product `idx * (size - overlap)`; all product facts are supplied explicitly. -/

/-- The clamp of lines 482-483 / 488-489 applied to an arbitrary nominal
offset `X`. -/
def offCore (dim size X : ℕ) : ℕ := if dim ≤ X + size then dim - size else X

theorem tileOffset_eq_offCore (dim size nz idx : ℕ) :
    tileOffset dim size nz idx = offCore dim size (idx * nz) := rfl

theorem offCore_add_size_le (dim size X : ℕ) (hsz : size ≤ dim) :
    offCore dim size X + size ≤ dim := by
  unfold offCore
  split <;> omega

theorem offCore_mono (dim size X Y : ℕ) (h : X ≤ Y) :
    offCore dim size X ≤ offCore dim size Y := by
  unfold offCore
  split <;> split <;> omega

theorem offCore_add_le (dim size X s : ℕ) :
    offCore dim size (X + s) ≤ offCore dim size X + s := by
  unfold offCore
  split <;> split <;> omega

theorem offCore_clamped (dim size X : ℕ) (h : dim ≤ X + size) :
    offCore dim size X = dim - size := by
  unfold offCore
  rw [if_pos h]

theorem offCore_unclamped (dim size X : ℕ) (h : X + size < dim) :
    offCore dim size X = X := by
  unfold offCore
  rw [if_neg (by omega)]

theorem offCore_le_px (dim size X px : ℕ) (h1 : X ≤ px) : offCore dim size X ≤ px := by
  unfold offCore
  split <;> omega

theorem offCore_px_lt (dim size X px : ℕ) (h1 : px < X + size) (h2 : px < dim) :
    px < offCore dim size X + size := by
  unfold offCore
  split <;> omega

theorem pyCeilDiv_le_mul (a b : ℕ) (hb : 0 < b) : a ≤ pyCeilDiv a b * b := by
  unfold pyCeilDiv
  have hqr := Nat.div_add_mod (a + b - 1) b
  have hr := Nat.mod_lt (a + b - 1) hb
  rw [Nat.mul_comm]
  generalize b * ((a + b - 1) / b) = A at hqr ⊢
  omega

theorem pyCeilDiv_mul_le (a b : ℕ) : pyCeilDiv a b * b ≤ a + b - 1 :=
  Nat.div_mul_le_self _ _

theorem pyCeilDiv_pos (a b : ℕ) (hb : 0 < b) (ha : 0 < a) : 0 < pyCeilDiv a b :=
  Nat.div_pos (by omega) hb

theorem tileOffset_zero (dim size nz : ℕ) (h : size ≤ dim) : tileOffset dim size nz 0 = 0 := by
  rw [tileOffset_eq_offCore, Nat.zero_mul]
  unfold offCore
  split <;> omega

/-- The number of tiles along an axis, as computed at lines 473-474. -/
def tileCount (dim size ov : ℕ) : ℕ := pyCeilDiv (dim - ov) (size - ov)

theorem tileCount_pos (dim size ov : ℕ) (hov : ov < size) (hsz : size ≤ dim) :
    0 < tileCount dim size ov :=
  pyCeilDiv_pos _ _ (by omega) (by omega)

/-- If the axis needs a single tile, the image is exactly one tile wide. -/
theorem tileCount_eq_one (dim size ov : ℕ) (hov : ov < size) (hdim : dim = size) :
    tileCount dim size ov = 1 := by
  subst hdim
  unfold tileCount pyCeilDiv
  apply Nat.div_eq_of_lt_le <;> omega

/-- The final tile of the axis is always clamped: it ends exactly at the
image boundary. -/
theorem tileOffset_last (dim size ov : ℕ) (hov : ov < size) (hsz : size ≤ dim) :
    tileOffset dim size (size - ov) (tileCount dim size ov - 1) = dim - size := by
  rw [tileOffset_eq_offCore]
  apply offCore_clamped
  unfold tileCount
  have h1 := pyCeilDiv_le_mul (dim - ov) (size - ov) (by omega)
  have h2 := Nat.sub_mul (pyCeilDiv (dim - ov) (size - ov)) 1 (size - ov)
  rw [h2, Nat.one_mul]
  generalize pyCeilDiv (dim - ov) (size - ov) * (size - ov) = A at h1 ⊢
  omega

/-- A non-final tile is never clamped: its offset is `idx * (size - ov)` and
it ends strictly inside the image. -/
theorem tileOffset_nonfinal (dim size ov idx : ℕ) (hov : ov < size) (hsz : size ≤ dim)
    (hidx : idx + 1 < tileCount dim size ov) :
    tileOffset dim size (size - ov) idx = idx * (size - ov) ∧
      idx * (size - ov) + size < dim := by
  have h1 := pyCeilDiv_mul_le (dim - ov) (size - ov)
  have h2 : idx * (size - ov) + 2 * (size - ov)
      ≤ pyCeilDiv (dim - ov) (size - ov) * (size - ov) := by
    have h3 : (idx + 2) * (size - ov) ≤ pyCeilDiv (dim - ov) (size - ov) * (size - ov) := by
      apply Nat.mul_le_mul_right
      unfold tileCount at hidx
      omega
    calc idx * (size - ov) + 2 * (size - ov) = (idx + 2) * (size - ov) := by ring
      _ ≤ _ := h3
  have h4 : idx * (size - ov) + size < dim := by
    generalize pyCeilDiv (dim - ov) (size - ov) * (size - ov) = A at h1 h2
    generalize idx * (size - ov) = B at h2 ⊢
    omega
  exact ⟨by rw [tileOffset_eq_offCore, offCore_unclamped _ _ _ h4], h4⟩

theorem tileOffset_add_size_le (dim size ov idx : ℕ) (hsz : size ≤ dim) :
    tileOffset dim size (size - ov) idx + size ≤ dim := by
  rw [tileOffset_eq_offCore]
  exact offCore_add_size_le _ _ _ hsz

/-- Offsets of consecutive tiles differ by at most `size - ov`: each non-first
tile starts at most `size - ov` past its predecessor, so its leading
`ov`-wide band lies inside the predecessor. -/
theorem tileOffset_succ_le (dim size ov idx : ℕ) :
    tileOffset dim size (size - ov) (idx + 1)
      ≤ tileOffset dim size (size - ov) idx + (size - ov) := by
  rw [tileOffset_eq_offCore, tileOffset_eq_offCore, Nat.succ_mul]
  exact offCore_add_le _ _ _ _

theorem tileOffset_mono (dim size ov idx : ℕ) :
    tileOffset dim size (size - ov) idx ≤ tileOffset dim size (size - ov) (idx + 1) := by
  rw [tileOffset_eq_offCore, tileOffset_eq_offCore]
  exact offCore_mono _ _ _ _ (Nat.mul_le_mul_right _ (by omega))

/-- Every non-first tile has a strictly positive offset. -/
theorem tileOffset_pos (dim size ov idx : ℕ) (hov : ov < size) (hsz : size ≤ dim)
    (hidx1 : 1 ≤ idx) (hidx2 : idx < tileCount dim size ov) :
    0 < tileOffset dim size (size - ov) idx := by
  have hs : 1 * (size - ov) ≤ idx * (size - ov) := Nat.mul_le_mul_right _ hidx1
  rw [Nat.one_mul] at hs
  rw [tileOffset_eq_offCore]
  unfold offCore
  split
  · rcases Nat.lt_or_ge size dim with h | h
    · omega
    · have hde : dim = size := by omega
      have := tileCount_eq_one dim size ov hov hde
      omega
  · omega

/-- Coverage: every coordinate of the axis lies in some tile. -/
theorem tileOffset_cover (dim size ov px : ℕ) (hov : ov < size) (hsz : size ≤ dim)
    (hpx : px < dim) :
    ∃ idx, idx < tileCount dim size ov ∧
      tileOffset dim size (size - ov) idx ≤ px ∧
      px < tileOffset dim size (size - ov) idx + size := by
  have hs : 0 < size - ov := by omega
  have hcnt := tileCount_pos dim size ov hov hsz
  have hqr := Nat.div_add_mod px (size - ov)
  have hr := Nat.mod_lt px hs
  have hq1 : px / (size - ov) * (size - ov) ≤ px := by
    rw [Nat.mul_comm]
    generalize (size - ov) * (px / (size - ov)) = A at hqr ⊢
    omega
  have hq2 : px < px / (size - ov) * (size - ov) + (size - ov) := by
    rw [Nat.mul_comm]
    generalize (size - ov) * (px / (size - ov)) = A at hqr ⊢
    omega
  rcases Nat.lt_or_ge (px / (size - ov)) (tileCount dim size ov) with hqN | hqN
  · refine ⟨px / (size - ov), hqN, ?_, ?_⟩
    · rw [tileOffset_eq_offCore]
      exact offCore_le_px _ _ _ _ hq1
    · rw [tileOffset_eq_offCore]
      apply offCore_px_lt _ _ _ _ _ hpx
      omega
  · refine ⟨tileCount dim size ov - 1, by omega, ?_, ?_⟩
    · rw [tileOffset_last dim size ov hov hsz]
      have h1 := pyCeilDiv_le_mul (dim - ov) (size - ov) hs
      have h2 : tileCount dim size ov * (size - ov) ≤ px / (size - ov) * (size - ov) :=
        Nat.mul_le_mul_right _ hqN
      unfold tileCount at h2
      generalize pyCeilDiv (dim - ov) (size - ov) * (size - ov) = A at h1 h2
      generalize px / (size - ov) * (size - ov) = B at h2 hq1
      omega
    · rw [tileOffset_last dim size ov hov hsz]
      omega

/-! ## Dimension bookkeeping for the combine folds -/

theorem Img.new_width (w h : ℕ) : (Img.new w h).width = w := rfl

theorem Img.new_height (w h : ℕ) : (Img.new w h).height = h := rfl

theorem Img.crop_width (im : Img) (x0 y0 x1 y1 : ℕ) : (im.crop x0 y0 x1 y1).width = x1 - x0 := rfl

theorem Img.crop_height (im : Img) (x0 y0 x1 y1 : ℕ) : (im.crop x0 y0 x1 y1).height = y1 - y0 := rfl

theorem Img.crop_pix_in (im : Img) (x0 y0 x1 y1 u v : ℕ)
    (h1 : x0 + u < im.width) (h2 : y0 + v < im.height) :
    (im.crop x0 y0 x1 y1).pix u v = im.pix (x0 + u) (y0 + v) := by
  show (if _ ∧ _ then _ else _) = _
  rw [if_pos ⟨h1, h2⟩]

theorem combine_tile_step_width (ov : ℕ) (mw : Img) (h : ℕ) (cr : Img) (e : ℕ × ℕ × Img) :
    (combine_tile_step ov mw h cr e).width = cr.width := by
  simp only [combine_tile_step]
  split <;> rfl

theorem combine_tile_step_height (ov : ℕ) (mw : Img) (h : ℕ) (cr : Img) (e : ℕ × ℕ × Img) :
    (combine_tile_step ov mw h cr e).height = cr.height := by
  simp only [combine_tile_step]
  split <;> rfl

theorem foldl_tile_width (ov : ℕ) (mw : Img) (h : ℕ) :
    ∀ (l : List (ℕ × ℕ × Img)) (cr : Img),
      (l.foldl (combine_tile_step ov mw h) cr).width = cr.width := by
  intro l
  induction l with
  | nil => intro cr; rfl
  | cons e t ih =>
    intro cr
    rw [List.foldl_cons, ih, combine_tile_step_width]

theorem foldl_tile_height (ov : ℕ) (mw : Img) (h : ℕ) :
    ∀ (l : List (ℕ × ℕ × Img)) (cr : Img),
      (l.foldl (combine_tile_step ov mw h) cr).height = cr.height := by
  intro l
  induction l with
  | nil => intro cr; rfl
  | cons e t ih =>
    intro cr
    rw [List.foldl_cons, ih, combine_tile_step_height]

theorem combine_row_width (ov : ℕ) (mw : Img) (w h : ℕ) (row : List (ℕ × ℕ × Img)) :
    (combine_row ov mw w h row).width = w := by
  unfold combine_row
  rw [foldl_tile_width]
  rfl

theorem combine_row_height (ov : ℕ) (mw : Img) (w h : ℕ) (row : List (ℕ × ℕ × Img)) :
    (combine_row ov mw w h row).height = h := by
  unfold combine_row
  rw [foldl_tile_height]
  rfl

theorem combine_row_step_width (ov : ℕ) (mw mh : Img) (w : ℕ) (ci : Img)
    (yhr : ℕ × ℕ × List (ℕ × ℕ × Img)) :
    (combine_row_step ov mw mh w ci yhr).width = ci.width := by
  simp only [combine_row_step]
  split <;> rfl

theorem combine_row_step_height (ov : ℕ) (mw mh : Img) (w : ℕ) (ci : Img)
    (yhr : ℕ × ℕ × List (ℕ × ℕ × Img)) :
    (combine_row_step ov mw mh w ci yhr).height = ci.height := by
  simp only [combine_row_step]
  split <;> rfl

theorem foldl_row_width (ov : ℕ) (mw mh : Img) (w : ℕ) :
    ∀ (l : List (ℕ × ℕ × List (ℕ × ℕ × Img))) (ci : Img),
      (l.foldl (combine_row_step ov mw mh w) ci).width = ci.width := by
  intro l
  induction l with
  | nil => intro ci; rfl
  | cons e t ih =>
    intro ci
    rw [List.foldl_cons, ih, combine_row_step_width]

theorem foldl_row_height (ov : ℕ) (mw mh : Img) (w : ℕ) :
    ∀ (l : List (ℕ × ℕ × List (ℕ × ℕ × Img))) (ci : Img),
      (l.foldl (combine_row_step ov mw mh w) ci).height = ci.height := by
  intro l
  induction l with
  | nil => intro ci; rfl
  | cons e t ih =>
    intro ci
    rw [List.foldl_cons, ih, combine_row_step_height]

/-! ## Pixel content of the tiles of `split_grid` -/

theorem split_grid_tile_fst (im : Img) (tw th ov y col : ℕ) :
    (split_grid_tile im tw th ov y col).1 = tileOffset im.width tw (tw - ov) col := rfl

theorem split_grid_tile_snd (im : Img) (tw th ov y col : ℕ) :
    (split_grid_tile im tw th ov y col).2.1 = tw := rfl

theorem split_grid_tile_img_width (im : Img) (tw th ov y col : ℕ) :
    (split_grid_tile im tw th ov y col).2.2.width = tw := by
  simp [split_grid_tile, Img.crop_width]

theorem split_grid_tile_img_height (im : Img) (tw th ov y col : ℕ) :
    (split_grid_tile im tw th ov y col).2.2.height = th := by
  simp [split_grid_tile, Img.crop_height]

theorem split_grid_tile_pix (im : Img) (tw th ov y col a b : ℕ)
    (ha : a < tw) (hb : b < th) (htw : tw ≤ im.width) (hyth : y + th ≤ im.height) :
    (split_grid_tile im tw th ov y col).2.2.pix a b
      = im.pix (tileOffset im.width tw (tw - ov) col + a) (y + b) := by
  have hxb := tileOffset_add_size_le im.width tw ov col htw
  show (im.crop _ _ _ _).pix a b = _
  rw [Img.crop_pix_in]
  · omega
  · omega

theorem combine_row_append (ov : ℕ) (mw : Img) (w h : ℕ) (l : List (ℕ × ℕ × Img))
    (e : ℕ × ℕ × Img) :
    combine_row ov mw w h (l ++ [e]) = combine_tile_step ov mw h (combine_row ov mw w h l) e := by
  simp [combine_row, List.foldl_append]

/-- Core invariant of the horizontal pass of `combine_grid`: after the first
`k` tiles of a row of `split_grid` are processed, every pixel up to the end of
tile `k - 1` carries the original image content.  The blended band of each
non-first tile lands on pixels its predecessor already restored, and blending
two copies of the same value is the identity. -/
theorem combine_row_pix (im : Img) (tw th ov y : ℕ) (mask_w : Img)
    (hov : ov < tw) (htw : tw ≤ im.width) (hyth : y + th ≤ im.height)
    (hmask : ∀ a b, a < ov → mask_w.pix a b ≤ 255) :
    ∀ k, 1 ≤ k → k ≤ tileCount im.width tw ov →
      ∀ u v, u < tileOffset im.width tw (tw - ov) (k - 1) + tw → v < th →
        (combine_row ov mask_w im.width th
          ((List.range k).map (split_grid_tile im tw th ov y))).pix u v = im.pix u (y + v) := by
  intro k
  induction k with
  | zero => omega
  | succ n ih =>
    intro _ hle u v hu hv
    simp only [Nat.add_sub_cancel] at hu
    rcases Nat.eq_zero_or_pos n with hn0 | hn1
    · -- first tile: pasted directly at x = 0
      subst hn0
      have hx0 : tileOffset im.width tw (tw - ov) 0 = 0 := tileOffset_zero _ _ _ htw
      rw [hx0] at hu
      simp only [List.range_succ, List.range_zero, List.nil_append, List.map_cons,
        List.map_nil, combine_row, List.foldl_cons, List.foldl_nil, combine_tile_step,
        split_grid_tile_fst, split_grid_tile_snd, hx0]
      rw [if_pos trivial]
      rw [Img.paste_pix_in _ _ _ _ _ _ (Nat.zero_le u)
        (by rw [split_grid_tile_img_width]; omega) (Nat.zero_le v)
        (by rw [split_grid_tile_img_height]; omega)
        (by rw [Img.new_width]; omega) (by rw [Img.new_height]; omega)]
      simp only [Nat.sub_zero]
      rw [split_grid_tile_pix im tw th ov y 0 u v (by omega) hv htw hyth, hx0, Nat.zero_add]
    · -- tile n ≥ 1: blended band then direct paste
      have hnlt : n < tileCount im.width tw ov := by omega
      have hxpos : 0 < tileOffset im.width tw (tw - ov) n :=
        tileOffset_pos im.width tw ov n hov htw hn1 hnlt
      have hxend : tileOffset im.width tw (tw - ov) n + tw ≤ im.width :=
        tileOffset_add_size_le im.width tw ov n htw
      have hsucc : tileOffset im.width tw (tw - ov) n
          ≤ tileOffset im.width tw (tw - ov) (n - 1) + (tw - ov) := by
        have h := tileOffset_succ_le im.width tw ov (n - 1)
        have hn' : n - 1 + 1 = n := by omega
        rw [hn'] at h
        exact h
      have hCRw := combine_row_width ov mask_w im.width th
        ((List.range n).map (split_grid_tile im tw th ov y))
      have hCRh := combine_row_height ov mask_w im.width th
        ((List.range n).map (split_grid_tile im tw th ov y))
      rw [List.range_succ, List.map_append, List.map_cons, List.map_nil, combine_row_append]
      simp only [combine_tile_step, split_grid_tile_fst, split_grid_tile_snd]
      rw [if_neg (by omega)]
      rcases Nat.lt_or_ge u (tileOffset im.width tw (tw - ov) n) with hcase | hcase
      · -- region untouched by tile n
        rw [Img.paste_pix_out _ _ _ _ _ _
          (by simp only [Img.crop_width, Img.crop_height, Nat.sub_zero]; omega)]
        rw [Img.pasteMask_pix_out _ _ _ _ _ _ _
          (by simp only [Img.crop_width, Img.crop_height, Nat.sub_zero]; omega)]
        exact ih hn1 (by omega) u v (by omega) hv
      · rcases Nat.lt_or_ge u (tileOffset im.width tw (tw - ov) n + ov) with hcase2 | hcase2
        · -- the overlap band: a blend of two copies of the original pixel
          rw [Img.paste_pix_out _ _ _ _ _ _
            (by simp only [Img.crop_width, Img.crop_height, Nat.sub_zero]; omega)]
          rw [Img.pasteMask_pix_in _ _ _ _ _ _ _ hcase
            (by simp only [Img.crop_width, Img.crop_height, Nat.sub_zero]; omega)
            (Nat.zero_le v)
            (by simp only [Img.crop_width, Img.crop_height, Nat.sub_zero]; omega)
            (by rw [hCRw]; omega) (by rw [hCRh]; omega)]
          have ha : u - tileOffset im.width tw (tw - ov) n < ov := by omega
          rw [Img.crop_pix_in _ _ _ _ _ _ _
            (by rw [split_grid_tile_img_width]; omega)
            (by rw [split_grid_tile_img_height]; omega)]
          simp only [Nat.zero_add, Nat.sub_zero]
          rw [split_grid_tile_pix im tw th ov y n _ v (by omega) hv htw hyth]
          rw [Nat.add_sub_cancel' hcase]
          rw [ih hn1 (by omega) u v (by omega) hv]
          exact blend255_self _ _ (hmask _ _ ha)
        · -- the direct part of tile n
          rw [Img.paste_pix_in _ _ _ _ _ _ hcase2
            (by simp only [Img.crop_width, Img.crop_height, Nat.sub_zero]; omega)
            (Nat.zero_le v)
            (by simp only [Img.crop_width, Img.crop_height, Nat.sub_zero]; omega)
            (by rw [Img.pasteMask_width, hCRw]; omega)
            (by rw [Img.pasteMask_height, hCRh]; omega)]
          rw [Img.crop_pix_in _ _ _ _ _ _ _
            (by rw [split_grid_tile_img_width]; omega)
            (by rw [split_grid_tile_img_height]; omega)]
          have harg : ov + (u - (tileOffset im.width tw (tw - ov) n + ov))
              = u - tileOffset im.width tw (tw - ov) n := by omega
          simp only [Nat.sub_zero, Nat.zero_add]
          rw [harg]
          rw [split_grid_tile_pix im tw th ov y n _ v (by omega) hv htw hyth]
          rw [Nat.add_sub_cancel' hcase]

/-- The full row of `split_grid` reproduces the whole strip of the image. -/
theorem combine_row_strip (im : Img) (tw th ov y : ℕ) (mask_w : Img)
    (hov : ov < tw) (htw : tw ≤ im.width) (hyth : y + th ≤ im.height)
    (hmask : ∀ a b, a < ov → mask_w.pix a b ≤ 255) :
    ∀ u v, u < im.width → v < th →
      (combine_row ov mask_w im.width th
        ((List.range (tileCount im.width tw ov)).map (split_grid_tile im tw th ov y))).pix u v
        = im.pix u (y + v) := by
  intro u v hu hv
  have hpos := tileCount_pos im.width tw ov hov htw
  have hlast := tileOffset_last im.width tw ov hov htw
  exact combine_row_pix im tw th ov y mask_w hov htw hyth hmask
    (tileCount im.width tw ov) hpos le_rfl u v (by omega) hv

theorem split_grid_row_fst (im : Img) (tw th ov r : ℕ) :
    (split_grid_row im tw th ov r).1 = tileOffset im.height th (th - ov) r := rfl

theorem split_grid_row_snd (im : Img) (tw th ov r : ℕ) :
    (split_grid_row im tw th ov r).2.1 = th := rfl

theorem split_grid_row_list (im : Img) (tw th ov r : ℕ) :
    (split_grid_row im tw th ov r).2.2
      = (List.range (tileCount im.width tw ov)).map
          (split_grid_tile im tw th ov (tileOffset im.height th (th - ov) r)) := rfl

/-- Core invariant of the vertical pass of `combine_grid`: after the first `k`
rows are processed, every pixel up to the end of row `k - 1` carries the
original image content. -/
theorem combine_rows_pix (im : Img) (tw th ov : ℕ) (mask_w mask_h : Img)
    (hovw : ov < tw) (htw : tw ≤ im.width) (hovh : ov < th) (hth : th ≤ im.height)
    (hmw : ∀ a b, a < ov → mask_w.pix a b ≤ 255)
    (hmh : ∀ a b, b < ov → mask_h.pix a b ≤ 255) :
    ∀ k, 1 ≤ k → k ≤ tileCount im.height th ov →
      ∀ u v, u < im.width → v < tileOffset im.height th (th - ov) (k - 1) + th →
        (((List.range k).map (split_grid_row im tw th ov)).foldl
          (combine_row_step ov mask_w mask_h im.width)
          (Img.new im.width im.height)).pix u v = im.pix u v := by
  intro k
  induction k with
  | zero => omega
  | succ n ih =>
    intro _ hle u v hu hv
    simp only [Nat.add_sub_cancel] at hv
    have hCRw := combine_row_width ov mask_w im.width th (split_grid_row im tw th ov n).2.2
    have hCRh := combine_row_height ov mask_w im.width th (split_grid_row im tw th ov n).2.2
    have hstrip : ∀ a b, a < im.width → b < th →
        (combine_row ov mask_w im.width th (split_grid_row im tw th ov n).2.2).pix a b
          = im.pix a (tileOffset im.height th (th - ov) n + b) := by
      intro a b hab hbb
      rw [split_grid_row_list]
      exact combine_row_strip im tw th ov (tileOffset im.height th (th - ov) n) mask_w
        hovw htw (tileOffset_add_size_le im.height th ov n hth) hmw a b hab hbb
    have hyend : tileOffset im.height th (th - ov) n + th ≤ im.height :=
      tileOffset_add_size_le im.height th ov n hth
    rcases Nat.eq_zero_or_pos n with hn0 | hn1
    · -- first row: pasted directly at y = 0
      subst hn0
      have hy0 : tileOffset im.height th (th - ov) 0 = 0 := tileOffset_zero _ _ _ hth
      rw [hy0] at hv
      simp only [List.range_succ, List.range_zero, List.nil_append, List.map_cons,
        List.map_nil, List.foldl_cons, List.foldl_nil, combine_row_step,
        split_grid_row_fst, split_grid_row_snd, hy0]
      rw [if_pos trivial]
      rw [Img.paste_pix_in _ _ _ _ _ _ (Nat.zero_le u)
        (by rw [hCRw]; omega) (Nat.zero_le v) (by rw [hCRh]; omega)
        (by rw [Img.new_width]; omega) (by rw [Img.new_height]; omega)]
      simp only [Nat.sub_zero]
      rw [hstrip u v hu (by omega), hy0, Nat.zero_add]
    · -- row n ≥ 1: blended band then direct paste
      have hnlt : n < tileCount im.height th ov := by omega
      have hypos : 0 < tileOffset im.height th (th - ov) n :=
        tileOffset_pos im.height th ov n hovh hth hn1 hnlt
      have hsucc : tileOffset im.height th (th - ov) n
          ≤ tileOffset im.height th (th - ov) (n - 1) + (th - ov) := by
        have h := tileOffset_succ_le im.height th ov (n - 1)
        have hn' : n - 1 + 1 = n := by omega
        rw [hn'] at h
        exact h
      have hCIw : (((List.range n).map (split_grid_row im tw th ov)).foldl
          (combine_row_step ov mask_w mask_h im.width)
          (Img.new im.width im.height)).width = im.width := by
        rw [foldl_row_width, Img.new_width]
      have hCIh : (((List.range n).map (split_grid_row im tw th ov)).foldl
          (combine_row_step ov mask_w mask_h im.width)
          (Img.new im.width im.height)).height = im.height := by
        rw [foldl_row_height, Img.new_height]
      rw [List.range_succ, List.map_append, List.map_cons, List.map_nil,
        List.foldl_append, List.foldl_cons, List.foldl_nil]
      simp only [combine_row_step, split_grid_row_fst, split_grid_row_snd]
      rw [if_neg (by omega)]
      rcases Nat.lt_or_ge v (tileOffset im.height th (th - ov) n) with hcase | hcase
      · -- region untouched by row n
        rw [Img.paste_pix_out _ _ _ _ _ _
          (by simp only [Img.crop_width, Img.crop_height, Nat.sub_zero, hCRw]; omega)]
        rw [Img.pasteMask_pix_out _ _ _ _ _ _ _
          (by simp only [Img.crop_width, Img.crop_height, Nat.sub_zero, hCRw]; omega)]
        exact ih hn1 (by omega) u v hu (by omega)
      · rcases Nat.lt_or_ge v (tileOffset im.height th (th - ov) n + ov) with hcase2 | hcase2
        · -- the overlap band: a blend of two copies of the original pixel
          rw [Img.paste_pix_out _ _ _ _ _ _
            (by simp only [Img.crop_width, Img.crop_height, Nat.sub_zero, hCRw]; omega)]
          rw [Img.pasteMask_pix_in _ _ _ _ _ _ _ (Nat.zero_le u)
            (by simp only [Img.crop_width, Img.crop_height, Nat.sub_zero, hCRw]; omega)
            hcase
            (by simp only [Img.crop_width, Img.crop_height, Nat.sub_zero, hCRw]; omega)
            (by rw [hCIw]; omega) (by rw [hCIh]; omega)]
          have hb : v - tileOffset im.height th (th - ov) n < ov := by omega
          rw [Img.crop_pix_in _ _ _ _ _ _ _ (by rw [hCRw]; omega) (by rw [hCRh]; omega)]
          simp only [Nat.zero_add, Nat.sub_zero]
          rw [hstrip u _ hu (by omega)]
          rw [Nat.add_sub_cancel' hcase]
          rw [ih hn1 (by omega) u v hu (by omega)]
          exact blend255_self _ _ (hmh _ _ hb)
        · -- the direct part of row n
          rw [Img.paste_pix_in _ _ _ _ _ _ (Nat.zero_le u)
            (by simp only [Img.crop_width, Img.crop_height, Nat.sub_zero, hCRw]; omega)
            hcase2
            (by simp only [Img.crop_width, Img.crop_height, Nat.sub_zero, hCRw]; omega)
            (by rw [Img.pasteMask_width, hCIw]; omega)
            (by rw [Img.pasteMask_height, hCIh]; omega)]
          rw [Img.crop_pix_in _ _ _ _ _ _ _ (by rw [hCRw]; omega) (by rw [hCRh]; omega)]
          have harg : ov + (v - (tileOffset im.height th (th - ov) n + ov))
              = v - tileOffset im.height th (th - ov) n := by omega
          simp only [Nat.sub_zero, Nat.zero_add]
          rw [harg]
          rw [hstrip u _ hu (by omega)]
          rw [Nat.add_sub_cancel' hcase]

/-- Round trip of the tiler: `combine_grid (split_grid image ...)` restores
every pixel of the image. -/
theorem combine_split_roundtrip (im : Img) (tw th ov : ℕ)
    (hovw : ov < tw) (hovh : ov < th) (htw : tw ≤ im.width) (hth : th ≤ im.height) :
    ∀ u v, u < im.width → v < im.height →
      (combine_grid (split_grid im tw th ov)).pix u v = im.pix u v := by
  intro u v hu hv
  have hpos := tileCount_pos im.height th ov hovh hth
  have hlast := tileOffset_last im.height th ov hovh hth
  have hmw : ∀ a b, a < ov → (Img.mk ov th (fun a _ => a * 255 / ov)).pix a b ≤ 255 :=
    fun a b ha => ramp_le_255 a ov ha
  have hmh : ∀ a b, b < ov → (Img.mk im.width ov (fun _ b => b * 255 / ov)).pix a b ≤ 255 :=
    fun a b hb => ramp_le_255 b ov hb
  have h := combine_rows_pix im tw th ov
    (Img.mk ov th (fun a _ => a * 255 / ov))
    (Img.mk im.width ov (fun _ b => b * 255 / ov))
    hovw htw hovh hth hmw hmh
    (tileCount im.height th ov) hpos le_rfl u v hu (by omega)
  exact h

theorem getD_range_map {α : Type} (f : ℕ → α) (n r : ℕ) (d : α) (hr : r < n) :
    ((List.range n).map f).getD r d = f r := by
  rw [List.getD_eq_getElem?_getD, List.getElem?_map, List.getElem?_range hr]
  rfl

/-- The offset of every tile: `idx * (size - ov)` except for the final tile,
which is pulled back to end exactly at the boundary. -/
theorem tileOffset_formula (dim size ov r : ℕ) (hov : ov < size) (hsz : size ≤ dim)
    (hr : r < tileCount dim size ov) :
    tileOffset dim size (size - ov) r
      = if r + 1 = tileCount dim size ov then dim - size else r * (size - ov) := by
  rcases eq_or_ne (r + 1) (tileCount dim size ov) with he | hne
  · rw [if_pos he]
    have h := tileOffset_last dim size ov hov hsz
    rw [show tileCount dim size ov - 1 = r by omega] at h
    exact h
  · rw [if_neg hne]
    exact (tileOffset_nonfinal dim size ov r hov hsz (by omega)).1

/-- Claim C1: for every image and `(tileW, tileH, overlap)` with
`overlap < min(tileW, tileH)`, `tileW ≤ width`, `tileH ≤ height`,
`combine_grid (split_grid image tileW tileH overlap)` reproduces the original
image pixel for pixel: where only one tile contributes the pixel is copied
unchanged, and at seams the linear blend of identical source pixels changes
nothing, so every pixel of the image is restored exactly. -/
theorem C1_grid_roundtrip (im : Img) (tileW tileH overlap : ℕ)
    (h1 : overlap < tileW) (h2 : overlap < tileH)
    (h3 : tileW ≤ im.width) (h4 : tileH ≤ im.height) :
    ∀ px py, px < im.width → py < im.height →
      (combine_grid (split_grid im tileW tileH overlap)).pix px py = im.pix px py :=
  combine_split_roundtrip im tileW tileH overlap h1 h2 h3 h4

theorem C1_grid_roundtrip_witness :
    (combine_grid (split_grid (Img.mk 5 4 (fun x y => x + 10 * y)) 3 3 1)).pix 2 1
      = (Img.mk 5 4 (fun x y => x + 10 * y)).pix 2 1 :=
  C1_grid_roundtrip (Img.mk 5 4 (fun x y => x + 10 * y)) 3 3 1
    (by decide) (by decide) (by decide) (by decide) 2 1 (by decide) (by decide)

/-- Claim C2: under the same hypotheses, `split_grid` produces exactly
`ceil((height - overlap) / (tileH - overlap))` rows of exactly
`ceil((width - overlap) / (tileW - overlap))` tiles each; every tile offset is
`index * (tileSize - overlap)` except that the final tile of each axis is
pulled back to end exactly at the image boundary; every tile lies fully
within the image; and the tiles jointly cover every pixel. -/
theorem C2_split_grid_layout (im : Img) (tileW tileH overlap : ℕ)
    (h1 : overlap < tileW) (h2 : overlap < tileH)
    (h3 : tileW ≤ im.width) (h4 : tileH ≤ im.height) :
    (split_grid im tileW tileH overlap).tiles.length
        = pyCeilDiv (im.height - overlap) (tileH - overlap) ∧
    (∀ r, r < pyCeilDiv (im.height - overlap) (tileH - overlap) →
      ((split_grid im tileW tileH overlap).tiles.getD r default).1
          = (if r + 1 = pyCeilDiv (im.height - overlap) (tileH - overlap)
             then im.height - tileH else r * (tileH - overlap)) ∧
      ((split_grid im tileW tileH overlap).tiles.getD r default).1 + tileH ≤ im.height ∧
      ((split_grid im tileW tileH overlap).tiles.getD r default).2.1 = tileH ∧
      ((split_grid im tileW tileH overlap).tiles.getD r default).2.2.length
          = pyCeilDiv (im.width - overlap) (tileW - overlap) ∧
      (∀ c, c < pyCeilDiv (im.width - overlap) (tileW - overlap) →
        (((split_grid im tileW tileH overlap).tiles.getD r default).2.2.getD c default).1
            = (if c + 1 = pyCeilDiv (im.width - overlap) (tileW - overlap)
               then im.width - tileW else c * (tileW - overlap)) ∧
        (((split_grid im tileW tileH overlap).tiles.getD r default).2.2.getD c default).1
            + tileW ≤ im.width ∧
        (((split_grid im tileW tileH overlap).tiles.getD r default).2.2.getD c default).2.1
            = tileW)) ∧
    (∀ px py, px < im.width → py < im.height →
      ∃ r c, r < pyCeilDiv (im.height - overlap) (tileH - overlap) ∧
        c < pyCeilDiv (im.width - overlap) (tileW - overlap) ∧
        ((split_grid im tileW tileH overlap).tiles.getD r default).1 ≤ py ∧
        py < ((split_grid im tileW tileH overlap).tiles.getD r default).1 + tileH ∧
        (((split_grid im tileW tileH overlap).tiles.getD r default).2.2.getD c default).1
            ≤ px ∧
        px < (((split_grid im tileW tileH overlap).tiles.getD r default).2.2.getD c default).1
            + tileW) := by
  have hrow : ∀ r, r < pyCeilDiv (im.height - overlap) (tileH - overlap) →
      (split_grid im tileW tileH overlap).tiles.getD r default
        = split_grid_row im tileW tileH overlap r := by
    intro r hr
    show ((List.range _).map _).getD r default = _
    rw [getD_range_map _ _ _ _ hr]
  have htile : ∀ r c, c < pyCeilDiv (im.width - overlap) (tileW - overlap) →
      (split_grid_row im tileW tileH overlap r).2.2.getD c default
        = split_grid_tile im tileW tileH overlap
            (tileOffset im.height tileH (tileH - overlap) r) c := by
    intro r c hc
    rw [split_grid_row_list]
    exact getD_range_map _ _ _ _ hc
  refine ⟨by simp [split_grid], ?_, ?_⟩
  · intro r hr
    rw [hrow r hr, split_grid_row_fst, split_grid_row_snd, split_grid_row_list]
    refine ⟨tileOffset_formula im.height tileH overlap r h2 h4 hr,
      tileOffset_add_size_le im.height tileH overlap r h4, rfl,
      by simp [tileCount], ?_⟩
    intro c hc
    have hc2 : c < tileCount im.width tileW overlap := hc
    rw [getD_range_map _ _ _ _ hc2, split_grid_tile_fst, split_grid_tile_snd]
    exact ⟨tileOffset_formula im.width tileW overlap c h1 h3 hc,
      tileOffset_add_size_le im.width tileW overlap c h3, rfl⟩
  · intro px py hpx hpy
    obtain ⟨r, hr, hry1, hry2⟩ := tileOffset_cover im.height tileH overlap py h2 h4 hpy
    obtain ⟨c, hc, hcx1, hcx2⟩ := tileOffset_cover im.width tileW overlap px h1 h3 hpx
    refine ⟨r, c, hr, hc, ?_⟩
    rw [hrow r hr, htile r c hc, split_grid_row_fst, split_grid_tile_fst]
    exact ⟨hry1, hry2, hcx1, hcx2⟩

theorem C2_split_grid_layout_witness :
    (split_grid (Img.mk 5 4 (fun x y => x + 10 * y)) 3 3 1).tiles.length
      = pyCeilDiv (4 - 1) (3 - 1) :=
  (C2_split_grid_layout (Img.mk 5 4 (fun x y => x + 10 * y)) 3 3 1
    (by decide) (by decide) (by decide) (by decide)).1

/-! ## The simple non-overlapping combiner (claim C9) -/

theorem simple_inner_fold_width : ∀ (l : List (ℕ × ℕ × Img)) (ci : Img) (yy : ℕ),
    (l.foldl (fun cr xwt => cr.paste xwt.2.2 xwt.1 yy) ci).width = ci.width := by
  intro l
  induction l with
  | nil => intro ci yy; rfl
  | cons e t ih =>
    intro ci yy
    rw [List.foldl_cons, ih]
    rfl

theorem simple_inner_fold_height : ∀ (l : List (ℕ × ℕ × Img)) (ci : Img) (yy : ℕ),
    (l.foldl (fun cr xwt => cr.paste xwt.2.2 xwt.1 yy) ci).height = ci.height := by
  intro l
  induction l with
  | nil => intro ci yy; rfl
  | cons e t ih =>
    intro ci yy
    rw [List.foldl_cons, ih]
    rfl

/-- Content of the inner fold of the simple combiner over the tiles of one
`split_grid` row: pixels inside one of the first `k` tile boxes carry the
image content, all other pixels are left as they were. -/
theorem simple_inner_pix (im : Img) (tw th ov y : ℕ) (htw : tw ≤ im.width)
    (hyth : y + th ≤ im.height) :
    ∀ k, ∀ ci : Img, ci.width = im.width → ci.height = im.height → ∀ u v,
      ((∃ c, c < k ∧ tileOffset im.width tw (tw - ov) c ≤ u ∧
          u < tileOffset im.width tw (tw - ov) c + tw ∧ y ≤ v ∧ v < y + th) →
        (((List.range k).map (split_grid_tile im tw th ov y)).foldl
          (fun cr xwt => cr.paste xwt.2.2 xwt.1 y) ci).pix u v = im.pix u v) ∧
      ((∀ c, c < k → ¬(tileOffset im.width tw (tw - ov) c ≤ u ∧
          u < tileOffset im.width tw (tw - ov) c + tw ∧ y ≤ v ∧ v < y + th)) →
        (((List.range k).map (split_grid_tile im tw th ov y)).foldl
          (fun cr xwt => cr.paste xwt.2.2 xwt.1 y) ci).pix u v = ci.pix u v) := by
  intro k
  induction k with
  | zero =>
    intro ci hw hh u v
    exact ⟨fun h => absurd h (by simp), fun _ => rfl⟩
  | succ n ih =>
    intro ci hw hh u v
    have hend := tileOffset_add_size_le im.width tw ov n htw
    have hFw : (((List.range n).map (split_grid_tile im tw th ov y)).foldl
        (fun cr xwt => cr.paste xwt.2.2 xwt.1 y) ci).width = im.width := by
      rw [simple_inner_fold_width, hw]
    have hFh : (((List.range n).map (split_grid_tile im tw th ov y)).foldl
        (fun cr xwt => cr.paste xwt.2.2 xwt.1 y) ci).height = im.height := by
      rw [simple_inner_fold_height, hh]
    rw [List.range_succ, List.map_append, List.map_cons, List.map_nil,
      List.foldl_append, List.foldl_cons, List.foldl_nil]
    by_cases hbox : tileOffset im.width tw (tw - ov) n ≤ u ∧
        u < tileOffset im.width tw (tw - ov) n + tw ∧ y ≤ v ∧ v < y + th
    · -- the pixel lies in tile n: the last paste writes the image content
      have hpix : ((((List.range n).map (split_grid_tile im tw th ov y)).foldl
            (fun cr xwt => cr.paste xwt.2.2 xwt.1 y) ci).paste
            (split_grid_tile im tw th ov y n).2.2 (split_grid_tile im tw th ov y n).1
            y).pix u v = im.pix u v := by
        rw [split_grid_tile_fst]
        rw [Img.paste_pix_in _ _ _ _ _ _ hbox.1
          (by rw [split_grid_tile_img_width]; omega) hbox.2.2.1
          (by rw [split_grid_tile_img_height]; omega)
          (by rw [hFw]; omega) (by rw [hFh]; omega)]
        rw [split_grid_tile_pix im tw th ov y n _ _ (by omega) (by omega) htw hyth]
        rw [Nat.add_sub_cancel' hbox.1, Nat.add_sub_cancel' hbox.2.2.1]
      exact ⟨fun _ => hpix, fun hno => absurd hbox (hno n (by omega))⟩
    · -- the pixel is outside tile n: the last paste leaves it unchanged
      have hout : ((((List.range n).map (split_grid_tile im tw th ov y)).foldl
            (fun cr xwt => cr.paste xwt.2.2 xwt.1 y) ci).paste
            (split_grid_tile im tw th ov y n).2.2 (split_grid_tile im tw th ov y n).1
            y).pix u v = (((List.range n).map (split_grid_tile im tw th ov y)).foldl
            (fun cr xwt => cr.paste xwt.2.2 xwt.1 y) ci).pix u v := by
        rw [split_grid_tile_fst]
        apply Img.paste_pix_out
        rw [split_grid_tile_img_width, split_grid_tile_img_height]
        intro hcon
        exact hbox ⟨hcon.1, hcon.2.1, hcon.2.2.1, hcon.2.2.2.1⟩
      constructor
      · intro hex
        obtain ⟨c, hck, hc1, hc2, hc3, hc4⟩ := hex
        have hcn : c < n := by
          rcases Nat.lt_or_ge c n with h | h
          · exact h
          · exfalso
            have : c = n := by omega
            subst this
            exact hbox ⟨hc1, hc2, hc3, hc4⟩
        rw [hout]
        exact (ih ci hw hh u v).1 ⟨c, hcn, hc1, hc2, hc3, hc4⟩
      · intro hno
        rw [hout]
        exact (ih ci hw hh u v).2 (fun c hc => hno c (by omega))

theorem simple_outer_fold_width : ∀ (l : List (ℕ × ℕ × List (ℕ × ℕ × Img))) (ci : Img),
    (l.foldl (fun (ci2 : Img) yhr => yhr.2.2.foldl
      (fun (cr : Img) xwt => cr.paste xwt.2.2 xwt.1 yhr.1) ci2) ci).width = ci.width := by
  intro l
  induction l with
  | nil => intro ci; rfl
  | cons e t ih =>
    intro ci
    rw [List.foldl_cons, ih, simple_inner_fold_width]

theorem simple_outer_fold_height : ∀ (l : List (ℕ × ℕ × List (ℕ × ℕ × Img))) (ci : Img),
    (l.foldl (fun (ci2 : Img) yhr => yhr.2.2.foldl
      (fun (cr : Img) xwt => cr.paste xwt.2.2 xwt.1 yhr.1) ci2) ci).height = ci.height := by
  intro l
  induction l with
  | nil => intro ci; rfl
  | cons e t ih =>
    intro ci
    rw [List.foldl_cons, ih, simple_inner_fold_height]

/-- Content of the outer fold of the simple combiner: every pixel in one of
the first `k` row bands carries the image content. -/
theorem simple_outer_pix (im : Img) (tw th ov : ℕ) (hovw : ov < tw) (hovh : ov < th)
    (htw : tw ≤ im.width) (hth : th ≤ im.height) :
    ∀ k, ∀ u v, u < im.width → v < im.height →
      (∃ r, r < k ∧ tileOffset im.height th (th - ov) r ≤ v ∧
          v < tileOffset im.height th (th - ov) r + th) →
        (((List.range k).map (split_grid_row im tw th ov)).foldl
          (fun ci2 yhr => yhr.2.2.foldl (fun cr xwt => cr.paste xwt.2.2 xwt.1 yhr.1) ci2)
          (Img.new im.width im.height)).pix u v = im.pix u v := by
  intro k
  induction k with
  | zero =>
    intro u v hu hv hex
    obtain ⟨r, hr, _⟩ := hex
    omega
  | succ n ih =>
    intro u v hu hv hex
    have hyend := tileOffset_add_size_le im.height th ov n hth
    have hFw : (((List.range n).map (split_grid_row im tw th ov)).foldl
        (fun ci2 yhr => yhr.2.2.foldl (fun cr xwt => cr.paste xwt.2.2 xwt.1 yhr.1) ci2)
        (Img.new im.width im.height)).width = im.width := by
      rw [simple_outer_fold_width, Img.new_width]
    have hFh : (((List.range n).map (split_grid_row im tw th ov)).foldl
        (fun ci2 yhr => yhr.2.2.foldl (fun cr xwt => cr.paste xwt.2.2 xwt.1 yhr.1) ci2)
        (Img.new im.width im.height)).height = im.height := by
      rw [simple_outer_fold_height, Img.new_height]
    rw [List.range_succ, List.map_append, List.map_cons, List.map_nil,
      List.foldl_append, List.foldl_cons, List.foldl_nil]
    have hinner := simple_inner_pix im tw th ov (tileOffset im.height th (th - ov) n)
      htw hyend (tileCount im.width tw ov)
      (((List.range n).map (split_grid_row im tw th ov)).foldl
        (fun ci2 yhr => yhr.2.2.foldl (fun cr xwt => cr.paste xwt.2.2 xwt.1 yhr.1) ci2)
        (Img.new im.width im.height)) hFw hFh u v
    by_cases hband : tileOffset im.height th (th - ov) n ≤ v ∧
        v < tileOffset im.height th (th - ov) n + th
    · -- the pixel lies in row n: some tile of row n covers it
      obtain ⟨c, hc, hc1, hc2⟩ := tileOffset_cover im.width tw ov u hovw htw hu
      show ((split_grid_row im tw th ov n).2.2.foldl
        (fun (cr : Img) xwt => cr.paste xwt.2.2 xwt.1 (split_grid_row im tw th ov n).1) _).pix u v
          = im.pix u v
      rw [split_grid_row_list, split_grid_row_fst]
      exact hinner.1 ⟨c, hc, hc1, hc2, hband.1, hband.2⟩
    · -- the pixel lies in an earlier row and row n leaves it unchanged
      obtain ⟨r, hr, hr1, hr2⟩ := hex
      have hrn : r < n := by
        rcases Nat.lt_or_ge r n with h | h
        · exact h
        · exfalso
          have : r = n := by omega
          subst this
          exact hband ⟨hr1, hr2⟩
      show ((split_grid_row im tw th ov n).2.2.foldl
        (fun (cr : Img) xwt => cr.paste xwt.2.2 xwt.1 (split_grid_row im tw th ov n).1) _).pix u v
          = im.pix u v
      rw [split_grid_row_list, split_grid_row_fst]
      rw [hinner.2 (fun c hc => by intro hcon; exact hband ⟨hcon.2.2.1, hcon.2.2.2⟩)]
      exact ih u v hu hv ⟨r, hrn, hr1, hr2⟩

/-- The simple non-overlapping combiner also restores every pixel when applied
to the tiles of `split_grid`. -/
theorem simple_split_roundtrip (im : Img) (tw th ov : ℕ)
    (hovw : ov < tw) (hovh : ov < th) (htw : tw ≤ im.width) (hth : th ≤ im.height) :
    ∀ u v, u < im.width → v < im.height →
      (combine_grid_simple (split_grid im tw th ov)).pix u v = im.pix u v := by
  intro u v hu hv
  obtain ⟨r, hr, hr1, hr2⟩ := tileOffset_cover im.height th ov v hovh hth hv
  exact simple_outer_pix im tw th ov hovw hovh htw hth
    (tileCount im.height th ov) u v hu hv ⟨r, hr, hr1, hr2⟩

/-- Claim C9: with `overlap = 0` the combine step degenerates to a simple
non-overlapping paste: `combine_grid` applied to `split_grid image tileW
tileH 0` returns normally (the embedding is total; the empty ramp masks make
every blended paste a no-op), agrees pixel for pixel with the simple
combiner that pastes each tile directly at its recorded offset with no
blending, and reproduces the image assembled from the tiles. -/
theorem C9_overlap_zero (im : Img) (tileW tileH : ℕ)
    (h1 : 0 < tileW) (h2 : 0 < tileH) (h3 : tileW ≤ im.width) (h4 : tileH ≤ im.height) :
    ∀ px py, px < im.width → py < im.height →
      (combine_grid (split_grid im tileW tileH 0)).pix px py
          = (combine_grid_simple (split_grid im tileW tileH 0)).pix px py ∧
      (combine_grid (split_grid im tileW tileH 0)).pix px py = im.pix px py := by
  intro px py hx hy
  have ha := combine_split_roundtrip im tileW tileH 0 h1 h2 h3 h4 px py hx hy
  have hb := simple_split_roundtrip im tileW tileH 0 h1 h2 h3 h4 px py hx hy
  exact ⟨by rw [ha, hb], ha⟩

theorem C9_overlap_zero_witness :
    (combine_grid (split_grid (Img.mk 5 4 (fun x y => 3 * x + y)) 2 3 0)).pix 3 2
        = (combine_grid_simple (split_grid (Img.mk 5 4 (fun x y => 3 * x + y)) 2 3 0)).pix 3 2
      ∧ (combine_grid (split_grid (Img.mk 5 4 (fun x y => 3 * x + y)) 2 3 0)).pix 3 2
        = (Img.mk 5 4 (fun x y => 3 * x + y)).pix 3 2 :=
  C9_overlap_zero (Img.mk 5 4 (fun x y => 3 * x + y)) 2 3
    (by decide) (by decide) (by decide) (by decide) 3 2 (by decide) (by decide)

/-! ## Lemmas about the edge scans of `get_crop_region` -/

theorem findIdx_range_le (p : ℕ → Bool) (w : ℕ) : (List.range w).findIdx p ≤ w := by
  simpa using @List.findIdx_le_length _ p (List.range w)

theorem findIdx_range_before (p : ℕ → Bool) (w i : ℕ)
    (hi : i < (List.range w).findIdx p) : p i = false := by
  have h := List.not_of_lt_findIdx hi
  rwa [List.getElem_range] at h

theorem findIdx_range_self (p : ℕ → Bool) (w : ℕ) (h : (List.range w).findIdx p < w) :
    p ((List.range w).findIdx p) = true := by
  have h2 : (List.range w).findIdx p < (List.range w).length := by simpa using h
  have h3 := @List.findIdx_getElem _ p (List.range w) h2
  rwa [List.getElem_range] at h3

theorem findIdx_range_min (p : ℕ → Bool) (w c : ℕ) (hc : c < w) (hp : p c = true) :
    (List.range w).findIdx p ≤ c := by
  by_contra h
  push_neg at h
  rw [findIdx_range_before p w c h] at hp
  simp at hp

theorem findIdx_range_full (p : ℕ → Bool) (w : ℕ) (h : ∀ i, i < w → p i = false) :
    (List.range w).findIdx p = w := by
  have hle := findIdx_range_le p w
  rcases Nat.lt_or_ge ((List.range w).findIdx p) w with hlt | hge
  · have := findIdx_range_self p w hlt
    rw [h _ hlt] at this
    simp at this
  · omega

theorem findIdx_rev_range_le (p : ℕ → Bool) (w : ℕ) :
    (List.range w).reverse.findIdx p ≤ w := by
  simpa using @List.findIdx_le_length _ p (List.range w).reverse

theorem findIdx_rev_range_before (p : ℕ → Bool) (w i : ℕ)
    (hi : i < (List.range w).reverse.findIdx p) : p (w - 1 - i) = false := by
  have h := List.not_of_lt_findIdx hi
  rwa [List.getElem_reverse, List.getElem_range, List.length_range] at h

theorem findIdx_rev_range_self (p : ℕ → Bool) (w : ℕ)
    (h : (List.range w).reverse.findIdx p < w) :
    p (w - 1 - (List.range w).reverse.findIdx p) = true := by
  have h2 : (List.range w).reverse.findIdx p < (List.range w).reverse.length := by simpa using h
  have h3 := @List.findIdx_getElem _ p (List.range w).reverse h2
  rwa [List.getElem_reverse, List.getElem_range, List.length_range] at h3

theorem findIdx_rev_range_min (p : ℕ → Bool) (w c : ℕ) (hc : c < w) (hp : p c = true) :
    (List.range w).reverse.findIdx p ≤ w - 1 - c := by
  by_contra h
  push_neg at h
  have h2 := findIdx_rev_range_before p w (w - 1 - c) h
  rw [show w - 1 - (w - 1 - c) = c by omega] at h2
  rw [h2] at hp
  simp at hp

theorem findIdx_rev_range_full (p : ℕ → Bool) (w : ℕ) (h : ∀ i, i < w → p i = false) :
    (List.range w).reverse.findIdx p = w := by
  have hle := findIdx_rev_range_le p w
  rcases Nat.lt_or_ge ((List.range w).reverse.findIdx p) w with hlt | hge
  · have h2 := findIdx_rev_range_self p w hlt
    rw [h _ (by omega)] at h2
    simp at h2
  · omega

theorem colAllZero_true_iff (m : NpMask) (i : ℕ) :
    colAllZero m i = true ↔ ∀ r, r < m.h → m.val r i = 0 := by
  simp [colAllZero, List.all_eq_true]

theorem rowAllZero_true_iff (m : NpMask) (i : ℕ) :
    rowAllZero m i = true ↔ ∀ c, c < m.w → m.val i c = 0 := by
  simp [rowAllZero, List.all_eq_true]

theorem colAllZero_false_of (m : NpMask) (r c : ℕ) (hr : r < m.h) (hnz : m.val r c ≠ 0) :
    (!colAllZero m c) = true := by
  rw [Bool.not_eq_true']
  rcases h : colAllZero m c with _ | _
  · rfl
  · exact absurd ((colAllZero_true_iff m c).1 h r hr) hnz

theorem rowAllZero_false_of (m : NpMask) (r c : ℕ) (hc : c < m.w) (hnz : m.val r c ≠ 0) :
    (!rowAllZero m r) = true := by
  rw [Bool.not_eq_true']
  rcases h : rowAllZero m r with _ | _
  · rfl
  · exact absurd ((rowAllZero_true_iff m r).1 h c hc) hnz

theorem crop_left_le (m : NpMask) (r c : ℕ) (hr : r < m.h) (hc : c < m.w)
    (hnz : m.val r c ≠ 0) : crop_left m ≤ c :=
  findIdx_range_min _ _ _ hc (colAllZero_false_of m r c hr hnz)

theorem crop_right_le (m : NpMask) (r c : ℕ) (hr : r < m.h) (hc : c < m.w)
    (hnz : m.val r c ≠ 0) : crop_right m ≤ m.w - 1 - c :=
  findIdx_rev_range_min _ _ _ hc (colAllZero_false_of m r c hr hnz)

theorem crop_top_le (m : NpMask) (r c : ℕ) (hr : r < m.h) (hc : c < m.w)
    (hnz : m.val r c ≠ 0) : crop_top m ≤ r :=
  findIdx_range_min _ _ _ hr (rowAllZero_false_of m r c hc hnz)

theorem crop_bottom_le (m : NpMask) (r c : ℕ) (hr : r < m.h) (hc : c < m.w)
    (hnz : m.val r c ≠ 0) : crop_bottom m ≤ m.h - 1 - r :=
  findIdx_rev_range_min _ _ _ hr (rowAllZero_false_of m r c hc hnz)

theorem crop_left_hits (m : NpMask) (h : crop_left m < m.w) :
    ∃ r, r < m.h ∧ m.val r (crop_left m) ≠ 0 := by
  have h2 := findIdx_range_self _ _ h
  rw [Bool.not_eq_true'] at h2
  by_contra hno
  push_neg at hno
  have h3 := (colAllZero_true_iff m (crop_left m)).2 (fun r hr => hno r hr)
  unfold crop_left at h3
  rw [h3] at h2
  simp at h2

theorem crop_right_hits (m : NpMask) (h : crop_right m < m.w) :
    ∃ r, r < m.h ∧ m.val r (m.w - 1 - crop_right m) ≠ 0 := by
  have h2 := findIdx_rev_range_self _ _ h
  rw [Bool.not_eq_true'] at h2
  by_contra hno
  push_neg at hno
  have h3 := (colAllZero_true_iff m (m.w - 1 - crop_right m)).2 (fun r hr => hno r hr)
  unfold crop_right at h3
  rw [h3] at h2
  simp at h2

theorem crop_top_hits (m : NpMask) (h : crop_top m < m.h) :
    ∃ c, c < m.w ∧ m.val (crop_top m) c ≠ 0 := by
  have h2 := findIdx_range_self _ _ h
  rw [Bool.not_eq_true'] at h2
  by_contra hno
  push_neg at hno
  have h3 := (rowAllZero_true_iff m (crop_top m)).2 (fun c hc => hno c hc)
  unfold crop_top at h3
  rw [h3] at h2
  simp at h2

theorem crop_bottom_hits (m : NpMask) (h : crop_bottom m < m.h) :
    ∃ c, c < m.w ∧ m.val (m.h - 1 - crop_bottom m) c ≠ 0 := by
  have h2 := findIdx_rev_range_self _ _ h
  rw [Bool.not_eq_true'] at h2
  by_contra hno
  push_neg at hno
  have h3 := (rowAllZero_true_iff m (m.h - 1 - crop_bottom m)).2 (fun c hc => hno c hc)
  unfold crop_bottom at h3
  rw [h3] at h2
  simp at h2

/-- Claim C3: for a mask with a nonzero entry away from the border and any
`pad`, `get_crop_region` returns a box `(left, top, right, bottom)` that
contains every nonzero pixel; with `pad = 0` the box is tight (each edge
row/column contains a nonzero pixel); increasing `pad` never shrinks the box;
and the right/bottom coordinates are clamped to the mask bounds. -/
theorem C3_crop_region (m : NpMask) (pad pad2 : ℕ)
    (hmask : ∃ r c, 0 < r ∧ r + 1 < m.h ∧ 0 < c ∧ c + 1 < m.w ∧ m.val r c ≠ 0)
    (hpp : pad ≤ pad2) :
    (∀ r c, r < m.h → c < m.w → m.val r c ≠ 0 →
      (get_crop_region m pad).1 ≤ c ∧ c < (get_crop_region m pad).2.2.1 ∧
      (get_crop_region m pad).2.1 ≤ r ∧ r < (get_crop_region m pad).2.2.2) ∧
    ((∃ r, r < m.h ∧ m.val r (get_crop_region m 0).1 ≠ 0) ∧
     (∃ r, r < m.h ∧ m.val r ((get_crop_region m 0).2.2.1 - 1) ≠ 0) ∧
     (∃ c, c < m.w ∧ m.val (get_crop_region m 0).2.1 c ≠ 0) ∧
     (∃ c, c < m.w ∧ m.val ((get_crop_region m 0).2.2.2 - 1) c ≠ 0)) ∧
    ((get_crop_region m pad2).1 ≤ (get_crop_region m pad).1 ∧
     (get_crop_region m pad2).2.1 ≤ (get_crop_region m pad).2.1 ∧
     (get_crop_region m pad).2.2.1 ≤ (get_crop_region m pad2).2.2.1 ∧
     (get_crop_region m pad).2.2.2 ≤ (get_crop_region m pad2).2.2.2) ∧
    ((get_crop_region m pad).2.2.1 ≤ m.w ∧ (get_crop_region m pad).2.2.2 ≤ m.h) := by
  obtain ⟨r0, c0, hr0, hr0h, hc0, hc0w, hnz0⟩ := hmask
  have hr0h2 : r0 < m.h := by omega
  have hc0w2 : c0 < m.w := by omega
  have hL := crop_left_le m r0 c0 hr0h2 hc0w2 hnz0
  have hR := crop_right_le m r0 c0 hr0h2 hc0w2 hnz0
  have hT := crop_top_le m r0 c0 hr0h2 hc0w2 hnz0
  have hB := crop_bottom_le m r0 c0 hr0h2 hc0w2 hnz0
  refine ⟨?_, ⟨?_, ?_, ?_, ?_⟩, ?_, ?_⟩
  · intro r c hr hc hnz
    have h1 := crop_left_le m r c hr hc hnz
    have h2 := crop_right_le m r c hr hc hnz
    have h3 := crop_top_le m r c hr hc hnz
    have h4 := crop_bottom_le m r c hr hc hnz
    simp only [get_crop_region]
    omega
  · simp only [get_crop_region, Nat.sub_zero]
    exact crop_left_hits m (by omega)
  · have h1 := crop_right_hits m (by omega)
    have h2 : (get_crop_region m 0).2.2.1 - 1 = m.w - 1 - crop_right m := by
      simp only [get_crop_region]
      have := findIdx_rev_range_le (fun i => !colAllZero m i) m.w
      unfold crop_right
      omega
    rw [h2]
    exact h1
  · simp only [get_crop_region, Nat.sub_zero]
    exact crop_top_hits m (by omega)
  · have h1 := crop_bottom_hits m (by omega)
    have h2 : (get_crop_region m 0).2.2.2 - 1 = m.h - 1 - crop_bottom m := by
      simp only [get_crop_region]
      have := findIdx_rev_range_le (fun i => !rowAllZero m i) m.h
      unfold crop_bottom
      omega
    rw [h2]
    exact h1
  · simp only [get_crop_region]
    omega
  · simp only [get_crop_region]
    omega

theorem C3_crop_region_witness :
    (∃ r, r < (NpMask.mk 3 3 (fun r c => if r = 1 ∧ c = 1 then 9 else 0)).h ∧
      (NpMask.mk 3 3 (fun r c => if r = 1 ∧ c = 1 then 9 else 0)).val r
        (get_crop_region (NpMask.mk 3 3 (fun r c => if r = 1 ∧ c = 1 then 9 else 0)) 0).1
        ≠ 0) :=
  ((C3_crop_region (NpMask.mk 3 3 (fun r c => if r = 1 ∧ c = 1 then 9 else 0)) 0 1
    ⟨1, 1, by decide, by decide, by decide, by decide, by decide⟩ (by decide)).2.1).1

/-- Claim C10: on an all-zero mask with `pad = 0`, `get_crop_region` returns
the inverted box `(w, h, 0, 0)` (so `left ≥ right` and `top ≥ bottom`) rather
than raising an error or returning an ordered empty box. -/
theorem C10_crop_region_all_zero (m : NpMask)
    (hz : ∀ r c, r < m.h → c < m.w → m.val r c = 0) :
    get_crop_region m 0 = (m.w, m.h, 0, 0) ∧
    (get_crop_region m 0).2.2.1 ≤ (get_crop_region m 0).1 ∧
    (get_crop_region m 0).2.2.2 ≤ (get_crop_region m 0).2.1 := by
  have hcol : ∀ i, i < m.w → (fun i => !colAllZero m i) i = false := by
    intro i hi
    simp only [Bool.not_eq_false']
    exact (colAllZero_true_iff m i).2 (fun r hr => hz r i hr hi)
  have hrow : ∀ i, i < m.h → (fun i => !rowAllZero m i) i = false := by
    intro i hi
    simp only [Bool.not_eq_false']
    exact (rowAllZero_true_iff m i).2 (fun c hc => hz i c hi hc)
  have h1 : crop_left m = m.w := findIdx_range_full _ _ hcol
  have h2 : crop_right m = m.w := findIdx_rev_range_full _ _ hcol
  have h3 : crop_top m = m.h := findIdx_range_full _ _ hrow
  have h4 : crop_bottom m = m.h := findIdx_rev_range_full _ _ hrow
  have h5 : get_crop_region m 0 = (m.w, m.h, 0, 0) := by
    simp only [get_crop_region, h1, h2, h3, h4, Nat.sub_zero, Nat.sub_self,
      Nat.add_zero, Nat.zero_min]
  rw [h5]
  exact ⟨rfl, Nat.zero_le _, Nat.zero_le _⟩

theorem C10_crop_region_all_zero_witness :
    get_crop_region (NpMask.mk 2 3 (fun _ _ => 0)) 0 = (3, 2, 0, 0) :=
  (C10_crop_region_all_zero (NpMask.mk 2 3 (fun _ _ => 0))
    (fun _ _ _ _ => rfl)).1

/-! ## Prompt-matrix expansion (claim C4) -/

theorem and_shift_ne_zero (num i : ℕ) : num &&& (1 <<< i) ≠ 0 ↔ num.testBit i = true := by
  rw [Nat.shiftLeft_eq, Nat.one_mul, Nat.and_two_pow]
  rcases h : num.testBit i
  · simp
  · simp [Nat.pow_eq_zero]

theorem mem_matrix_selected_idx (num : ℕ) (parts : List String) (i : ℕ) :
    i ∈ (matrix_selected_idx num parts).map Prod.fst
      ↔ (i < (parts.drop 1).length ∧ num.testBit i = true) := by
  simp only [matrix_selected_idx, List.mem_map, List.mem_filter]
  constructor
  · rintro ⟨pr, ⟨hmem, hfil⟩, heq⟩
    subst heq
    rw [List.mem_enum_iff_getElem?] at hmem
    obtain ⟨hlt, -⟩ := List.getElem?_eq_some.mp hmem
    refine ⟨hlt, ?_⟩
    rw [← and_shift_ne_zero]
    simpa using hfil
  · rintro ⟨hlt, htb⟩
    refine ⟨(i, (parts.drop 1).get ⟨i, hlt⟩), ⟨?_, ?_⟩, rfl⟩
    · rw [List.mem_enum_iff_getElem?]
      exact List.getElem?_eq_getElem hlt
    · simpa using (and_shift_ne_zero num i).mpr htb

/-- Claim C4: a prompt with `k` pipe-delimited clauses expands, in the
prompt-matrix branch of `process_images`, to exactly `2^(k-1)` prompts, all
paired with the same resolved seed, and optional clause `i` (zero-indexed
among the parts after the first) is selected in expansion `num` exactly when
bit `i` of `num` is set. -/
theorem C4_prompt_matrix (prompt : String) (rand seed : ℤ) (add_to_start : Bool) :
    (process_images_all_prompts add_to_start prompt).length
        = 2 ^ ((prompt_matrix_parts prompt).length - 1) ∧
    process_images_all_seeds add_to_start prompt (process_images_resolve_seed rand seed)
        = List.replicate (2 ^ ((prompt_matrix_parts prompt).length - 1))
            (process_images_resolve_seed rand seed) ∧
    (∀ num i,
      i ∈ (matrix_selected_idx num (prompt_matrix_parts prompt)).map Prod.fst
        ↔ (i < (prompt_matrix_parts prompt).length - 1 ∧ num.testBit i = true)) := by
  have hlen : (process_images_all_prompts add_to_start prompt).length
      = 2 ^ ((prompt_matrix_parts prompt).length - 1) := by
    simp [process_images_all_prompts]
  refine ⟨hlen, ?_, ?_⟩
  · unfold process_images_all_seeds
    rw [hlen]
  · intro num i
    rw [mem_matrix_selected_idx, List.length_drop]

/-! ## Loopback driver (claim C5) -/

theorem loopback_strength_rec {I : Type} (gen : ℤ → ℚ → I → I) (rand : ℕ → ℤ)
    (seed0 : ℤ) (str0 : ℚ) (img0 : I) (n : ℕ) :
    loopback_strength_used gen rand seed0 str0 img0 (n + 1)
      = max (loopback_strength_used gen rand seed0 str0 img0 n * (19 / 20)) (1 / 10) := rfl

theorem loopback_seed_state_rec {I : Type} (gen : ℤ → ℚ → I → I) (rand : ℕ → ℤ)
    (seed0 : ℤ) (str0 : ℚ) (img0 : I) (n : ℕ) :
    (loopback_state gen rand seed0 str0 img0 (n + 1)).1
      = loopback_seed_used gen rand seed0 str0 img0 n + 1 := rfl

/-- Counterexample to claim C5 as stated: with initial seed `-2` (negative but
not `-1`, accepted by the code) the seed mutated for round 1 is `-1`, which
round 1 re-resolves through the random draw (here 0), so round 1's seed is not
round 0's resolved seed plus 1; and with initial strength `1/20 < 0.1` the
strength used in round 0 is `1/20`, not `max(1/20 * 0.95^0, 0.1) = 0.1`. -/
theorem C5_loopback_counterexample :
    loopback_seed_used (fun _ _ (u : Unit) => u) (fun _ => 0) (-2) (1 / 20) () 1
        ≠ loopback_seed_used (fun _ _ (u : Unit) => u) (fun _ => 0) (-2) (1 / 20) () 0 + 1 ∧
    loopback_strength_used (fun _ _ (u : Unit) => u) (fun _ => 0) (-2) (1 / 20) () 0
        ≠ max ((1 / 20 : ℚ) * (19 / 20) ^ 0) (1 / 10) := by
  constructor
  · decide
  · norm_num [loopback_strength_used, loopback_state]

/-- Claim C5 amended: provided round 0's seed resolves to a non-negative value
(it is either `-1`, resolved through the non-negative random draw, or itself
non-negative), the seed used in round `n` is round 0's resolved seed plus `n`;
the strength used in round 0 is the initial strength `s`, and for `n ≥ 1` the
strength used in round `n` is `max(s * 0.95^n, 0.1)`; and each round's output
image becomes the next round's source image. -/
theorem C5_loopback_amended {I : Type} (gen : ℤ → ℚ → I → I) (rand : ℕ → ℤ)
    (seed0 : ℤ) (str0 : ℚ) (img0 : I)
    (hrand : ∀ n, 0 ≤ rand n) (hseed : seed0 = -1 ∨ 0 ≤ seed0) :
    ∀ n,
      loopback_seed_used gen rand seed0 str0 img0 n
          = loopback_seed_used gen rand seed0 str0 img0 0 + n ∧
      loopback_strength_used gen rand seed0 str0 img0 0 = str0 ∧
      (1 ≤ n → loopback_strength_used gen rand seed0 str0 img0 n
          = max (str0 * (19 / 20) ^ n) (1 / 10)) ∧
      loopback_source gen rand seed0 str0 img0 (n + 1)
          = loopback_output gen rand seed0 str0 img0 n := by
  have hs0 : 0 ≤ loopback_seed_used gen rand seed0 str0 img0 0 := by
    show 0 ≤ process_images_resolve_seed (rand 0) seed0
    unfold process_images_resolve_seed
    rcases hseed with h | h
    · rw [if_pos h]
      exact hrand 0
    · rw [if_neg (by omega)]
      exact h
  have hseedn : ∀ n, loopback_seed_used gen rand seed0 str0 img0 n
      = loopback_seed_used gen rand seed0 str0 img0 0 + n := by
    intro n
    induction n with
    | zero => simp
    | succ k ih =>
      show process_images_resolve_seed (rand (k + 1))
        (loopback_state gen rand seed0 str0 img0 (k + 1)).1 = _
      rw [loopback_seed_state_rec, ih]
      unfold process_images_resolve_seed
      rw [if_neg (by omega)]
      push_cast
      ring
  have hstr : ∀ n, 1 ≤ n → loopback_strength_used gen rand seed0 str0 img0 n
      = max (str0 * (19 / 20) ^ n) (1 / 10) := by
    intro n
    induction n with
    | zero => omega
    | succ k ih =>
      intro _
      rcases Nat.eq_zero_or_pos k with hk0 | hk1
      · subst hk0
        rw [loopback_strength_rec]
        show max (str0 * (19 / 20)) (1 / 10) = _
        rw [pow_one]
      · rw [loopback_strength_rec, ih hk1,
          max_mul_of_nonneg _ _ (by norm_num : (0 : ℚ) ≤ 19 / 20), max_assoc]
        have h1 : str0 * (19 / 20) ^ k * (19 / 20) = str0 * (19 / 20) ^ (k + 1) := by
          ring
        have h2 : max ((1 / 10 : ℚ) * (19 / 20)) (1 / 10) = 1 / 10 :=
          max_eq_right (by norm_num)
        rw [h1, h2]
  exact fun n => ⟨hseedn n, rfl, hstr n, rfl⟩

theorem C5_loopback_amended_witness :
    loopback_seed_used (fun _ _ (u : Unit) => u) (fun _ => 7) 5 (1 / 2) () 2
      = loopback_seed_used (fun _ _ (u : Unit) => u) (fun _ => 7) 5 (1 / 2) () 0 + 2 :=
  (C5_loopback_amended (fun _ _ (u : Unit) => u) (fun _ => 7) 5 (1 / 2) ()
    (fun _ => by norm_num) (Or.inr (by norm_num)) 2).1

/-! ## CFG denoiser (claim C6) -/

/-- Claim C6: `CFGDenoiser.forward` computes
`uncond + (cond - uncond) * cond_scale` in both configurations, and the
batched path (one inner call on a doubled batch, split back with `chunk(2)`)
equals the split path (two inner calls), assuming the inner model maps a
concatenated batch to the concatenation of its two halves' outputs (and hence
produces outputs of equal length for the two halves). -/
theorem C6_cfg_denoiser
    (inner_model : List (List ℚ) → List (List ℚ) → List (List ℚ) → List (List ℚ))
    (x sigma uncond cond : List (List ℚ)) (cond_scale : ℚ)
    (maskTriple : Option (List (List ℚ) × List (List ℚ) × List (List ℚ)))
    (hcat : inner_model (x ++ x) (sigma ++ sigma) (uncond ++ cond)
        = inner_model x sigma uncond ++ inner_model x sigma cond)
    (hlen : (inner_model x sigma uncond).length = (inner_model x sigma cond).length) :
    CFGDenoiser_forward true inner_model x sigma uncond cond cond_scale maskTriple
        = CFGDenoiser_forward false inner_model x sigma uncond cond cond_scale maskTriple ∧
    CFGDenoiser_forward false inner_model x sigma uncond cond cond_scale maskTriple
        = latent_blend maskTriple
            (cfg_combine cond_scale (inner_model x sigma uncond) (inner_model x sigma cond)) := by
  refine ⟨?_, rfl⟩
  simp only [CFGDenoiser_forward, if_pos, hcat]
  have hhalf : ((inner_model x sigma uncond ++ inner_model x sigma cond).length + 1) / 2
      = (inner_model x sigma uncond).length := by
    rw [List.length_append]
    omega
  rw [hhalf, List.take_left, List.drop_left]
  simp

theorem C6_cfg_denoiser_witness :
    CFGDenoiser_forward true (fun a _ _ => a) [[1, 2]] [[0, 0]]
        [[10, 20]] [[100, 200]] 2 none
      = CFGDenoiser_forward false (fun a _ _ => a) [[1, 2]] [[0, 0]]
        [[10, 20]] [[100, 200]] 2 none :=
  (C6_cfg_denoiser (fun a _ _ => a) [[1, 2]] [[0, 0]] [[10, 20]] [[100, 200]]
    2 none rfl rfl).1

/-! ## Request validation (claim C7) -/

/-- Counterexample to claim C7 as stated: in Inpainting mode a request with
non-positive batch count and size and dimensions that are not multiples of 64
passes every check run before model invocation, because the batch/dimension
validation of `do_generate` is guarded by
`mode == 'Text-to-Image' or mode == 'Image-to-Image'`. -/
theorem C7_validation_counterexample :
    do_generate_checks GenMode.Inpainting 0 0 100 100 (1 / 2) = Except.ok () := by
  unfold do_generate_checks
  rw [if_neg (by decide)]
  unfold img2img_strength_check
  rw [if_pos (by norm_num)]

/-- Claim C7 amended: in Text-to-Image and Image-to-Image modes, requests with
non-positive batch count or batch size or with dimensions not multiples of 64
are rejected with an error before any model or sampler invocation; in
Image-to-Image and Inpainting modes a denoising strength outside [0, 1] is
rejected by the `img2img` entry assertion; Inpainting mode performs no batch
or dimension validation (and Text-to-Image none on the denoising strength). -/
theorem C7_validation_amended (mode : GenMode)
    (batch_count batch_size image_height image_width : ℤ) (denoising_strength : ℚ) :
    ((mode = GenMode.TextToImage ∨ mode = GenMode.ImageToImage) →
      (batch_count ≤ 0 ∨ batch_size ≤ 0 ∨ image_height % 64 ≠ 0 ∨ image_width % 64 ≠ 0) →
      ∃ e, do_generate_checks mode batch_count batch_size image_height image_width
        denoising_strength = Except.error e) ∧
    ((mode = GenMode.ImageToImage ∨ mode = GenMode.Inpainting) →
      (denoising_strength < 0 ∨ 1 < denoising_strength) →
      ∃ e, do_generate_checks mode batch_count batch_size image_height image_width
        denoising_strength = Except.error e) ∧
    (mode = GenMode.Inpainting → 0 ≤ denoising_strength → denoising_strength ≤ 1 →
      do_generate_checks mode batch_count batch_size image_height image_width
        denoising_strength = Except.ok ()) := by
  refine ⟨?_, ?_, ?_⟩
  · intro hm hbad
    unfold do_generate_checks
    rw [if_pos hm]
    by_cases h1 : batch_count ≤ 0
    · rw [if_pos h1]
      exact ⟨_, rfl⟩
    · rw [if_neg h1]
      by_cases h2 : batch_size ≤ 0
      · rw [if_pos h2]
        exact ⟨_, rfl⟩
      · rw [if_neg h2]
        have h3 : image_height % 64 ≠ 0 ∨ image_width % 64 ≠ 0 := by tauto
        rw [if_pos h3]
        exact ⟨_, rfl⟩
  · intro hm hbad
    have hfail : ¬(0 ≤ denoising_strength ∧ denoising_strength ≤ 1) := by
      intro hc
      rcases hbad with h | h
      · linarith [hc.1]
      · linarith [hc.2]
    unfold do_generate_checks
    rcases hm with hI | hI
    · subst hI
      rw [if_pos (Or.inr rfl)]
      by_cases h1 : batch_count ≤ 0
      · rw [if_pos h1]
        exact ⟨_, rfl⟩
      · rw [if_neg h1]
        by_cases h2 : batch_size ≤ 0
        · rw [if_pos h2]
          exact ⟨_, rfl⟩
        · rw [if_neg h2]
          by_cases h3 : image_height % 64 ≠ 0 ∨ image_width % 64 ≠ 0
          · rw [if_pos h3]
            exact ⟨_, rfl⟩
          · rw [if_neg h3, if_neg (by decide)]
            unfold img2img_strength_check
            rw [if_neg hfail]
            exact ⟨_, rfl⟩
    · subst hI
      rw [if_neg (by decide)]
      unfold img2img_strength_check
      rw [if_neg hfail]
      exact ⟨_, rfl⟩
  · intro hm h0 h1
    subst hm
    unfold do_generate_checks
    rw [if_neg (by decide)]
    unfold img2img_strength_check
    rw [if_pos ⟨h0, h1⟩]

theorem C7_validation_amended_witness :
    do_generate_checks GenMode.Inpainting 0 0 100 100 0 = Except.ok () :=
  (C7_validation_amended GenMode.Inpainting 0 0 100 100 0).2.2 rfl
    (by norm_num) (by norm_num)

/-! ## CLIP re-tokenisation finalisation (claim C8) -/

theorem clip_pad_spec (max_length id_start id_end : ℕ) (hml : 4 ≤ max_length)
    (remade : List ℕ) :
    (clip_pad max_length id_start id_end remade).length = max_length - 2 ∧
    (clip_pad max_length id_start id_end remade).head? = some id_start ∧
    (clip_pad max_length id_start id_end remade).getLast? = some id_end ∧
    (clip_warns max_length remade = true ↔ clip_overflow max_length remade ≠ []) ∧
    remade.take (clip_maxlen max_length - 2) ++ clip_overflow max_length remade = remade ∧
    clip_pad max_length id_start id_end remade
      = id_start :: (remade.take (clip_maxlen max_length - 2)
          ++ List.replicate (clip_maxlen max_length - 2 - remade.length) id_end
          ++ [id_end]) := by
  have hnf : clip_pad max_length id_start id_end remade
      = id_start :: (remade.take (clip_maxlen max_length - 2)
          ++ List.replicate (clip_maxlen max_length - 2 - remade.length) id_end
          ++ [id_end]) := by
    simp only [clip_pad]
    rw [List.take_append_eq_append_take, List.take_replicate]
    rw [Nat.min_self]
  refine ⟨?_, ?_, ?_, ?_, List.take_append_drop _ _, hnf⟩
  · rw [hnf]
    simp only [List.length_cons, List.length_append, List.length_take,
      List.length_replicate, List.length_singleton, List.length_nil, clip_maxlen]
    omega
  · rw [hnf]
    rfl
  · rw [hnf, ← List.cons_append, List.getLast?_concat]
  · simp only [clip_warns, clip_overflow, decide_eq_true_eq, ne_eq, List.drop_eq_nil_iff]
    omega

/-- Counterexample to claim C8 as stated: the remade token sequence is padded
to `max_length - 2` entries, not to the tokenizer's maximum sequence length
`max_length` (the source subtracts 2 once at `maxlen = max_length - 2` and
again when padding/truncating to `maxlen - 2` content tokens).  For CLIP's
`max_length = 77` the finalised sequence has 75 entries. -/
theorem C8_clip_counterexample :
    (clip_pad 77 49406 49407
      ((remake_tokens false (fun _ => none) (fun _ => none) [5, 6] 1).1)).length ≠ 77 := by
  have h : (remake_tokens false (fun _ => none) (fun _ => none) [5, 6] (1 : ℚ)).1
      = [5, 6] := by
    simp [remake_tokens]
  rw [h]
  decide

/-- Claim C8 amended: for every prompt's token list, the remade token sequence
produced by the re-tokenisation loop is padded or truncated to the fixed
length `max_length - 2` (two less than the tokenizer's maximum sequence
length), beginning with the begin-of-sequence marker and ending with the
end-of-sequence marker; a warning comment is appended if and only if
truncation occurred, and the overflow it reports is exactly the dropped
suffix of the remade sequence. -/
theorem C8_clip_finalize (max_length id_start id_end : ℕ) (hml : 4 ≤ max_length)
    (emph : Bool) (token_mults : ℕ → Option ℚ)
    (ids_lookup : ℕ → Option (List (List ℕ × String))) (tokens : List ℕ) (mult : ℚ) :
    (clip_pad max_length id_start id_end
        (remake_tokens emph token_mults ids_lookup tokens mult).1).length
      = max_length - 2 ∧
    (clip_pad max_length id_start id_end
        (remake_tokens emph token_mults ids_lookup tokens mult).1).head? = some id_start ∧
    (clip_pad max_length id_start id_end
        (remake_tokens emph token_mults ids_lookup tokens mult).1).getLast? = some id_end ∧
    (clip_warns max_length (remake_tokens emph token_mults ids_lookup tokens mult).1 = true
      ↔ clip_overflow max_length (remake_tokens emph token_mults ids_lookup tokens mult).1
          ≠ []) ∧
    (remake_tokens emph token_mults ids_lookup tokens mult).1.take
        (clip_maxlen max_length - 2)
      ++ clip_overflow max_length (remake_tokens emph token_mults ids_lookup tokens mult).1
      = (remake_tokens emph token_mults ids_lookup tokens mult).1 := by
  have h := clip_pad_spec max_length id_start id_end hml
    (remake_tokens emph token_mults ids_lookup tokens mult).1
  exact ⟨h.1, h.2.1, h.2.2.1, h.2.2.2.1, h.2.2.2.2.1⟩

theorem C8_clip_finalize_witness :
    (clip_pad 77 49406 49407
      ((remake_tokens false (fun _ => none) (fun _ => none) [] 1).1)).length = 77 - 2 :=
  (C8_clip_finalize 77 49406 49407 (by norm_num) false (fun _ => none) (fun _ => none)
    [] 1).1
